import Mathlib

/-!
Verification of the git-ai attribution engine against its specification.

Rust strings are modelled as lists of characters (`Str`), machine `u32`
counters as natural numbers reduced modulo `2 ^ 32` where the source adds
them, filesystem and subprocess results as `Option`/`Except` values, and
`HashMap`s either as association lists (iteration modelled in first
insertion order, which no proved statement depends on) or as lookup
functions.  External library behaviour (serde JSON codecs, the text diff,
the attribution tracker living in a module that is not part of the
examined tree) is passed in as explicit function parameters, constrained
only by hypotheses reflecting its documented contract.
-/

set_option maxHeartbeats 1000000

namespace GitAi

/-- Rust `String`, modelled as its sequence of characters. -/
abbrev Str := List Char

/-- Coerce a Lean string literal to the `Str` model. -/
def str (s : String) : Str := s.data

/-- The `u32` modulus: arithmetic in the source is on 32-bit unsigned
integers, so additions of counters are reduced modulo this. -/
def U32M : Nat := 2 ^ 32

/-! ## Data model (working log side)

`working_log.rs` is not part of the examined tree; the shapes below are
modelled from the spec (section 3, "Checkpoint") and from how the examined
files consume them. -/

/-- Agent identity `{tool, id, model}` (spec section 3). -/
structure AgentId where
  tool : Str
  id : Str
  model : Str
deriving DecidableEq, Repr

/-- Checkpoint kind (spec section 3: `kind ∈ {Human, AiAgent, AiTab}`). -/
inductive CheckpointKind where
  | Human
  | AiAgent
  | AiTab
deriving DecidableEq, Repr

/-- Modelled from the spec: `CheckpointKind::to_str` from the missing
`working_log.rs`; the only value the examined code compares against is the
human sentinel `"human"` (spec section 3, Attribution). -/
def CheckpointKind.to_str : CheckpointKind → Str
  | .Human => str "human"
  | .AiAgent => str "ai_agent"
  | .AiTab => str "ai_tab"

/-- Character-interval attribution `{start, end, author_id, timestamp}`
(spec section 3); the `end` field is renamed `stop` because `end` is a
Lean keyword. -/
structure Attribution where
  start : Nat
  stop : Nat
  author_id : Str
  timestamp : Nat
deriving DecidableEq, Repr

/-- Line-level attribution `{start_line, end_line, author_id, overridden}`
(spec section 3). -/
structure LineAttribution where
  start_line : Nat
  end_line : Nat
  author_id : Str
  overridden : Bool
deriving DecidableEq, Repr

/-- Cumulative per-kind line statistics carried on each checkpoint
(modelled from the spec, section 3 `line_stats`, and the field names used
by `checkpoint.rs`). -/
structure CheckpointLineStats where
  human_additions : Nat := 0
  human_deletions : Nat := 0
  ai_agent_additions : Nat := 0
  ai_agent_deletions : Nat := 0
  ai_tab_additions : Nat := 0
  ai_tab_deletions : Nat := 0
  overrides : Nat := 0
deriving DecidableEq, Repr

/-- Modelled from the spec: additions bucketed by checkpoint kind, as
consumed by `AuthorshipLog::apply_checkpoint`. -/
def CheckpointLineStats.additions_for_kind (s : CheckpointLineStats) :
    CheckpointKind → Nat
  | .Human => s.human_additions
  | .AiAgent => s.ai_agent_additions
  | .AiTab => s.ai_tab_additions

/-- Modelled from the spec: deletions bucketed by checkpoint kind. -/
def CheckpointLineStats.deletions_for_kind (s : CheckpointLineStats) :
    CheckpointKind → Nat
  | .Human => s.human_deletions
  | .AiAgent => s.ai_agent_deletions
  | .AiTab => s.ai_tab_deletions

/-- One file entry of a checkpoint (`WorkingLogEntry` in the source). -/
structure WorkingLogEntry where
  file : Str
  blob_sha : Str
  attributions : List Attribution
  line_attributions : List LineAttribution
deriving DecidableEq, Repr

/-- Prompt record (spec section 3); transcript messages are opaque here,
only their count is ever inspected by the examined code.  The misspelled
field `overriden_lines` keeps the source's name. -/
structure PromptRecord where
  agent_id : AgentId
  human_author : Option Str
  messages : List Str
  total_additions : Nat := 0
  total_deletions : Nat := 0
  accepted_lines : Nat := 0
  overriden_lines : Nat := 0
deriving DecidableEq, Repr

/-- One checkpoint of the working log (spec section 3). -/
structure Checkpoint where
  api_version : Str
  kind : CheckpointKind
  author : Str
  agent_id : Option AgentId
  transcript : Option (List Str)
  line_stats : CheckpointLineStats
  entries : List WorkingLogEntry
deriving DecidableEq, Repr

/-- Modelled from the spec: the current checkpoint api version string
(spec section 6); only equality against it is ever used. -/
def CHECKPOINT_API_VERSION : Str := str "checkpoint/1.x.y"

/-! ## C8: binary-file classification (`checkpoint.rs::is_text_file`) -/

/-- What `std::fs::metadata` reports for the path. -/
inductive FsKind where
  | file
  | other
deriving DecidableEq, Repr

/-- Embedding of `checkpoint.rs::is_text_file`: the filesystem is
abstracted as the metadata answer for the path and the byte content
`std::fs::read` would return (`none` models a read error).  The source
reads the entire file and reports text exactly when no byte is a null
byte. -/
def is_text_file (metadata : Option FsKind) (content : Option (List Nat)) : Bool :=
  match metadata with
  | none => false
  | some k =>
    if k ≠ FsKind.file then false
    else
      match content with
      | some bytes => !bytes.contains 0
      | none => false

/-! ## C7: `repo_storage.rs::PersistedWorkingLog::read_all_checkpoints`

The JSONL file content is abstracted line by line: a line is blank
(`line.trim().is_empty()`), fails serde parsing, or parses to a
checkpoint.  The body below mirrors the source's loop, including the
propagated error on a malformed line. -/

/-- One line of `checkpoints.jsonl`, abstracted by how the reader's three
tests classify it. -/
inductive JsonlLine where
  | blank
  | malformed
  | parsed (cp : Checkpoint)
deriving DecidableEq

/-- The loop body of `read_all_checkpoints` over the file's lines. -/
def read_checkpoint_lines : List JsonlLine → Except Unit (List Checkpoint)
  | [] => .ok []
  | line :: rest =>
    match line with
    | .blank => read_checkpoint_lines rest
    | .malformed => .error ()
    | .parsed cp =>
      if cp.api_version ≠ CHECKPOINT_API_VERSION then
        read_checkpoint_lines rest
      else
        (read_checkpoint_lines rest).map (cp :: ·)

/-- Embedding of `read_all_checkpoints`: `none` models a missing
`checkpoints.jsonl`. -/
def read_all_checkpoints (file : Option (List JsonlLine)) :
    Except Unit (List Checkpoint) :=
  match file with
  | none => .ok []
  | some lines => read_checkpoint_lines lines

/-! ## C9: `stash_hooks.rs::process_stash_apply`

The git queries made by the function are abstracted as `Except`/`Option`
inputs; the outcome records whether the reset-style reconstruction was
invoked and with which commit pair.  Event logging has no bearing on the
outcome and is omitted. -/

/-- Observable outcome of `process_stash_apply`: either the working log is
left untouched, or `reconstruct_working_log_after_stash_apply target
original` is invoked. -/
inductive StashOutcome where
  | untouched
  | reconstructed (target : Str) (original : Str)
deriving DecidableEq, Repr

/-- Embedding of `process_stash_apply` (run only after a successful stash
apply/pop).  `hasConflicts` is `has_conflicts_in_working_dir`,
`stashCommit` is `resolve_stash_to_commit`, `originalHeadOf` is
`get_stash_original_head`, `targetHead` is `repository.head().target()`,
and `checkpointsOfOriginal` is `read_all_checkpoints` on the original
head's working log. -/
def process_stash_apply (hasConflicts : Except Unit Bool)
    (stashCommit : Except Unit Str) (originalHeadOf : Str → Except Unit Str)
    (targetHead : Option Str)
    (checkpointsOfOriginal : Str → Except Unit (List Checkpoint)) :
    StashOutcome :=
  match hasConflicts with
  | .ok true => .untouched
  | _ =>
    match stashCommit with
    | .error _ => .untouched
    | .ok sc =>
      match originalHeadOf sc with
      | .error _ => .untouched
      | .ok original_head =>
        match targetHead with
        | none => .untouched
        | some target_head =>
          if original_head = target_head then .untouched
          else
            let has_working_log :=
              match checkpointsOfOriginal original_head with
              | .ok cps => !cps.isEmpty
              | .error _ => false
            if !has_working_log then .untouched
            else .reconstructed target_head original_head

/-! ## Association-list helpers standing in for `HashMap` -/

/-- `HashMap::insert`: replace the value in place if the key is present,
append otherwise. -/
def alInsert {β : Type} (m : List (Str × β)) (k : Str) (v : β) : List (Str × β) :=
  if (m.lookup k).isSome then
    m.map (fun p => if p.1 = k then (k, v) else p)
  else
    m ++ [(k, v)]

/-! ## C3: `rebase_authorship.rs::transform_attributions_to_final_state`

The `virtual_attribution.rs` module is not part of the examined tree.
Modelled from the spec (section 4.5): a virtual attribution state maps
each file to its character attributions, line attributions and content,
and carries the prompt-record set, base commit and a timestamp.  The
attribution tracker (`attribution_tracker.rs`, also missing) enters as
the `update` and `toLineAttrs` parameters. -/

/-- The reserved internal sentinel author (spec, Design notes). -/
def DUMMY_AUTHOR : Str := str "__DUMMY__"

/-- Modelled from the spec: a `VirtualAttributions` value (section 4.5). -/
structure VirtualAttributions where
  base_commit : Str
  attributions : List (Str × (List Attribution × List LineAttribution))
  file_contents : List (Str × Str)
  prompts : List (Str × PromptRecord)
  timestamp : Nat

/-- Accessor `get_char_attributions`. -/
def VirtualAttributions.get_char_attributions (va : VirtualAttributions)
    (file : Str) : Option (List Attribution) :=
  (va.attributions.lookup file).map Prod.fst

/-- Accessor `get_line_attributions`. -/
def VirtualAttributions.get_line_attributions (va : VirtualAttributions)
    (file : Str) : Option (List LineAttribution) :=
  (va.attributions.lookup file).map Prod.snd

/-- Accessor `get_file_content`. -/
def VirtualAttributions.get_file_content (va : VirtualAttributions)
    (file : Str) : Option Str :=
  va.file_contents.lookup file

/-- Rust slice `s[a..b]` (total model via take/drop). -/
def strSlice (s : Str) (a b : Nat) : Str := (s.take b).drop a

/-- Rust `str::find`: byte index of the first occurrence of `needle`. -/
def findSub (needle : Str) : Str → Option Nat
  | [] => if needle.isEmpty then some 0 else none
  | c :: rest =>
    if (c :: rest).take needle.length = needle then some 0
    else (findSub needle rest).map (· + 1)

/-- The dummy-restoration pass of the transformer: for each attribution
still marked dummy, look its text up in the reference content and adopt
the first reference attribution covering the found position. -/
def restore_dummy_attrs (original_content : Str)
    (original_attrs : List Attribution) (final_content : Str)
    (attrs : List Attribution) : List Attribution :=
  attrs.map fun attr =>
    if attr.author_id = DUMMY_AUTHOR then
      let new_text := strSlice final_content attr.start (min attr.stop final_content.length)
      match findSub new_text original_content with
      | some pos =>
        match original_attrs.find? (fun oa => decide (oa.start ≤ pos) && decide (pos < oa.stop)) with
        | some oa => { attr with author_id := oa.author_id }
        | none => attr
      | none => attr
    else attr

/-- Per-file body of the transformer's loop, producing the `(char attrs,
line attrs)` pair recorded for a file with non-empty final content. -/
def transform_one_file
    (update : Str → Str → List Attribution → Str → Nat → Except Unit (List Attribution))
    (toLineAttrs : List Attribution → Str → List LineAttribution)
    (source_va : VirtualAttributions)
    (original_head_state : Option VirtualAttributions)
    (file_path final_content : Str) :
    Except Unit (List Attribution × List LineAttribution) :=
  match
    (match source_va.get_char_attributions file_path,
        source_va.get_file_content file_path with
    | some attrs, some content =>
      update content final_content attrs DUMMY_AUTHOR source_va.timestamp
    | _, _ => .ok []) with
  | .error e => .error e
  | .ok transformed0 =>
    let transformed1 :=
      match original_head_state with
      | none => transformed0
      | some os =>
        match os.get_file_content file_path with
        | none => transformed0
        | some original_content =>
          if original_content = final_content then
            match os.get_char_attributions file_path with
            | some original_attrs => original_attrs
            | none => transformed0
          else
            restore_dummy_attrs original_content
              ((os.get_char_attributions file_path).getD []) final_content transformed0
    let transformed := transformed1.filter (fun a => a.author_id ≠ DUMMY_AUTHOR)
    .ok (transformed, toLineAttrs transformed final_content)

/-- The transformer's loop over the final state's files (`HashMap`
iteration modelled in list order; the result maps are order-insensitive). -/
def transform_go
    (update : Str → Str → List Attribution → Str → Nat → Except Unit (List Attribution))
    (toLineAttrs : List Attribution → Str → List LineAttribution)
    (source_va : VirtualAttributions)
    (original_head_state : Option VirtualAttributions) :
    List (Str × Str) →
    Except Unit (List (Str × (List Attribution × List LineAttribution)) × List (Str × Str))
  | [] => .ok ([], [])
  | (file_path, final_content) :: rest =>
    if final_content.isEmpty then
      match source_va.get_char_attributions file_path,
          source_va.get_file_content file_path,
          source_va.get_line_attributions file_path with
      | some src_attrs, some src_content, some src_line_attrs =>
        (transform_go update toLineAttrs source_va original_head_state rest).map
          (fun r => ((file_path, (src_attrs, src_line_attrs)) :: r.1,
                     (file_path, src_content) :: r.2))
      | _, _, _ => transform_go update toLineAttrs source_va original_head_state rest
    else
      match transform_one_file update toLineAttrs source_va original_head_state
          file_path final_content with
      | .error e => .error e
      | .ok pair =>
        (transform_go update toLineAttrs source_va original_head_state rest).map
          (fun r => ((file_path, pair) :: r.1, (file_path, final_content) :: r.2))

/-- Embedding of `transform_attributions_to_final_state`. -/
def transform_attributions_to_final_state
    (update : Str → Str → List Attribution → Str → Nat → Except Unit (List Attribution))
    (toLineAttrs : List Attribution → Str → List LineAttribution)
    (source_va : VirtualAttributions)
    (final_state : List (Str × Str))
    (original_head_state : Option VirtualAttributions) :
    Except Unit VirtualAttributions :=
  (transform_go update toLineAttrs source_va original_head_state final_state).map
    fun r =>
      { base_commit := source_va.base_commit
        attributions := r.1
        file_contents := r.2
        prompts := source_va.prompts
        timestamp := source_va.timestamp }

/-! ## C4: `checkpoint.rs::compute_line_stats` and
`collect_overridden_lines`

The added/deleted line totals come from the external text-diff library
(`similar::TextDiff`) and are taken as inputs; the override bookkeeping,
which C4 is about, is embedded in full. -/

/-- Embedding of `collect_overridden_lines`: the set of line numbers
covered by an overridden line attribution (attributions with
`start_line > end_line` are skipped, as in the source). -/
def collect_overridden_lines (las : List LineAttribution) : Finset Nat :=
  las.foldl
    (fun s a =>
      if a.overridden then
        if a.start_line > a.end_line then s
        else s ∪ Finset.Icc a.start_line a.end_line
      else s)
    ∅

/-- The map `file path → latest (blob_sha, line_attributions)` built from
the previous checkpoints (latest entry wins). -/
def previous_file_state (cps : List Checkpoint) :
    List (Str × (Str × List LineAttribution)) :=
  cps.foldl
    (fun m cp =>
      cp.entries.foldl (fun m e => alInsert m e.file (e.blob_sha, e.line_attributions)) m)
    []

/-- The newly-counted overridden lines for one entry: the current
overridden set minus the overridden set of the most recent previous entry
for the same file. -/
def entry_new_overrides (prev : List (Str × (Str × List LineAttribution)))
    (e : WorkingLogEntry) : Finset Nat :=
  collect_overridden_lines e.line_attributions \
    (((prev.lookup e.file).map (fun p => collect_overridden_lines p.2)).getD ∅)

/-- Embedding of `compute_line_stats`.  `total_additions` and
`total_deletions` are the text-diff totals the source computes with the
external diff library. -/
def compute_line_stats (total_additions total_deletions : Nat)
    (previous_checkpoints : List Checkpoint) (entries : List WorkingLogEntry)
    (kind : CheckpointKind) : CheckpointLineStats :=
  let stats := ((previous_checkpoints.getLast?).map (fun cp => cp.line_stats)).getD {}
  let prev := previous_file_state previous_checkpoints
  let new_overrides := entries.foldl (fun n e => n + (entry_new_overrides prev e).card) 0
  let stats :=
    match kind with
    | .Human =>
      { stats with
        human_additions := (stats.human_additions + total_additions) % U32M
        human_deletions := (stats.human_deletions + total_deletions) % U32M }
    | .AiAgent =>
      { stats with
        ai_agent_additions := (stats.ai_agent_additions + total_additions) % U32M
        ai_agent_deletions := (stats.ai_agent_deletions + total_deletions) % U32M }
    | .AiTab =>
      { stats with
        ai_tab_additions := (stats.ai_tab_additions + total_additions) % U32M
        ai_tab_deletions := (stats.ai_tab_deletions + total_deletions) % U32M }
  { stats with overrides := (stats.overrides + new_overrides) % U32M }

/-! ## C10: `checkpoint.rs::get_subsequent_checkpoint_entries`

The attribution tracker (missing `attribution_tracker.rs`) enters as the
`attr_unattr`, `update` and `toLineAttrs` parameters; the filesystem and
the working log's blob store as `readFile` and `getFileVersion` (`none`
models a failed read, which the source absorbs with
`unwrap_or_default()`). -/

/-- Embedding of `make_entry_for_file`. -/
def make_entry_for_file
    (attr_unattr : Str → List Attribution → Str → Nat → List Attribution)
    (update : Str → Str → List Attribution → Str → Nat → Except Unit (List Attribution))
    (toLineAttrs : List Attribution → Str → List LineAttribution)
    (file_path blob_sha author_id : Str) (previous_content : Str)
    (previous_attributions : List Attribution) (content : Str) (ts : Nat) :
    Except Unit WorkingLogEntry := do
  let filled := attr_unattr previous_content previous_attributions
    (CheckpointKind.Human.to_str) (ts - 1)
  let new_attributions ← update previous_content content filled author_id ts
  let line_attributions := toLineAttrs new_attributions content
  .ok ⟨file_path, blob_sha, new_attributions, line_attributions⟩

/-- The map `file path → latest (blob_sha, attributions)` built from the
previous checkpoints. -/
def prev_hashes_with_attributions (cps : List Checkpoint) :
    List (Str × (Str × List Attribution)) :=
  cps.foldl
    (fun m cp =>
      cp.entries.foldl (fun m e => alInsert m e.file (e.blob_sha, e.attributions)) m)
    []

/-- The author id chosen by `get_subsequent_checkpoint_entries`. -/
def subsequent_author_id (shortHash : Str → Str → Str) (kind : CheckpointKind)
    (agent : Option AgentId) : Str :=
  if kind ≠ CheckpointKind.Human then
    match agent with
    | some a => shortHash a.id a.tool
    | none => kind.to_str
  else kind.to_str

/-- The per-file loop of `get_subsequent_checkpoint_entries`. -/
def subsequent_entries_go
    (attr_unattr : Str → List Attribution → Str → Nat → List Attribution)
    (update : Str → Str → List Attribution → Str → Nat → Except Unit (List Attribution))
    (toLineAttrs : List Attribution → Str → List LineAttribution)
    (readFile : Str → Option Str) (getFileVersion : Str → Option Str)
    (file_content_hashes : Str → Option Str)
    (prevMap : List (Str × (Str × List Attribution))) (author_id : Str) (ts : Nat) :
    List Str → Except Unit (List WorkingLogEntry)
  | [] => .ok []
  | file_path :: rest =>
    let current_content := (readFile file_path).getD []
    let pc :=
      match prevMap.lookup file_path with
      | some hv => ((getFileVersion hv.1).getD [], hv.2)
      | none => ([], [])
    if current_content = pc.1 then
      subsequent_entries_go attr_unattr update toLineAttrs readFile getFileVersion
        file_content_hashes prevMap author_id ts rest
    else do
      let blob_sha := (file_content_hashes file_path).getD []
      let entry ← make_entry_for_file attr_unattr update toLineAttrs file_path blob_sha
        author_id pc.1 pc.2 current_content ts
      (subsequent_entries_go attr_unattr update toLineAttrs readFile getFileVersion
        file_content_hashes prevMap author_id ts rest).map (entry :: ·)

/-- Embedding of `get_subsequent_checkpoint_entries`. -/
def get_subsequent_checkpoint_entries
    (shortHash : Str → Str → Str)
    (attr_unattr : Str → List Attribution → Str → Nat → List Attribution)
    (update : Str → Str → List Attribution → Str → Nat → Except Unit (List Attribution))
    (toLineAttrs : List Attribution → Str → List LineAttribution)
    (readFile : Str → Option Str) (getFileVersion : Str → Option Str)
    (kind : CheckpointKind) (files : List Str)
    (file_content_hashes : Str → Option Str)
    (previous_checkpoints : List Checkpoint) (agent : Option AgentId) (ts : Nat) :
    Except Unit (List WorkingLogEntry) :=
  subsequent_entries_go attr_unattr update toLineAttrs readFile getFileVersion
    file_content_hashes (prev_hashes_with_attributions previous_checkpoints)
    (subsequent_author_id shortHash kind agent) ts files

/-! ## Authorship log data model
(`authorship_log_serialization.rs`; `LineRange` itself lives in the
missing `authorship_log.rs` and is modelled from the spec, sections 3 and
4.1). -/

/-- Modelled from the spec: `LineRange` — `Single(n)` or `Range(start,
end)`, inclusive and 1-indexed (spec section 3).  `end` is renamed `stop`
(Lean keyword). -/
inductive LineRange where
  | Single (line : Nat)
  | Range (start stop : Nat)
deriving DecidableEq, Repr

/-- The lower bound of a range, the key for every sort in the source. -/
def LineRange.startLine : LineRange → Nat
  | .Single n => n
  | .Range s _ => s

/-- The upper bound of a range. -/
def LineRange.stopLine : LineRange → Nat
  | .Single n => n
  | .Range _ e => e

/-- Modelled from the spec: `LineRange::contains(line)`. -/
def LineRange.containsLine (r : LineRange) (l : Nat) : Bool :=
  match r with
  | .Single n => l = n
  | .Range s e => decide (s ≤ l) && decide (l ≤ e)

/-- Modelled from the spec: `LineRange::expand()` to the explicit list of
lines (for `Range(s, e)`, the inclusive run `s..=e`). -/
def LineRange.expand : LineRange → List Nat
  | .Single n => [n]
  | .Range s e => List.range' s (e + 1 - s)

/-- Canonical range from inclusive bounds: collapse to `Single` when the
bounds coincide. -/
def mkRange (s e : Nat) : LineRange :=
  if s = e then LineRange.Single s else LineRange.Range s e

/-- The run-grouping loop behind `compress_lines`: the current run is
`[s, e]` and each further line either extends it or starts a new run. -/
def compress_go (s e : Nat) : List Nat → List LineRange
  | [] => [mkRange s e]
  | y :: ys => if y = e + 1 then compress_go s y ys else mkRange s e :: compress_go y y ys

/-- Modelled from the spec: `LineRange::compress_lines` — recover the
canonical minimal ranges from a sorted list of unique line numbers (spec
section 4.1); the grouping mirrors the in-tree
`compress_lines_to_working_log_format`. -/
def LineRange.compress_lines : List Nat → List LineRange
  | [] => []
  | x :: xs => compress_go x x xs

/-- Number of lines a range stands for (`count_line_range` in the
source); `Range(s, e)` with `s > e` would underflow `u32` in the source
and is truncated to `0` lines here via natural subtraction. -/
def count_line_range : LineRange → Nat
  | .Single _ => 1
  | .Range s e => e - s + 1

/-- Attestation entry: a session short hash and its line ranges. -/
structure AttestationEntry where
  hash : Str
  line_ranges : List LineRange
deriving DecidableEq, Repr

/-- Per-file attestation block. -/
structure FileAttestation where
  file_path : Str
  entries : List AttestationEntry
deriving DecidableEq, Repr

/-- Authorship log format version identifier. -/
def AUTHORSHIP_LOG_VERSION : Str := str "authorship/3.0.0"

/-- Metadata section below the divider (the `BTreeMap` of prompts is an
association list here; every operation preserves key uniqueness). -/
structure AuthorshipMetadata where
  schema_version : Str
  base_commit_sha : Str
  prompts : List (Str × PromptRecord)
deriving DecidableEq, Repr

/-- `AuthorshipMetadata::new`. -/
def AuthorshipMetadata.new : AuthorshipMetadata :=
  ⟨AUTHORSHIP_LOG_VERSION, [], []⟩

/-- The complete authorship log. -/
structure AuthorshipLog where
  attestations : List FileAttestation
  metadata : AuthorshipMetadata
deriving DecidableEq, Repr

/-- `AuthorshipLog::new`. -/
def AuthorshipLog.new : AuthorshipLog := ⟨[], AuthorshipMetadata.new⟩

/-! ## Range merging (`AuthorshipLog::merge_line_ranges`) -/

/-- Boolean lexicographic order on character lists, modelling Rust's
`str::cmp` used by every `sort_by` below. -/
def strLeB : Str → Str → Bool
  | [], _ => true
  | _ :: _, [] => false
  | x :: xs, y :: ys => if x < y then true else if y < x then false else strLeB xs ys

/-- `AuthorshipLog::ranges_can_merge`: overlap or adjacency. -/
def ranges_can_merge (r1 r2 : LineRange) : Bool :=
  decide (r1.startLine ≤ r2.stopLine + 1) && decide (r2.startLine ≤ r1.stopLine + 1)

/-- `AuthorshipLog::merge_ranges`: hull of two ranges. -/
def merge_ranges (r1 r2 : LineRange) : LineRange :=
  mkRange (min r1.startLine r2.startLine) (max r1.stopLine r2.stopLine)

/-- One step of the merging fold: merge into the accumulator's last range
when possible, append otherwise. -/
def merge_step (merged : List LineRange) (current : LineRange) : List LineRange :=
  match merged.getLast? with
  | some last =>
    if ranges_can_merge last current then merged.dropLast ++ [merge_ranges last current]
    else merged ++ [current]
  | none => [current]

/-- Embedding of `AuthorshipLog::merge_line_ranges`: stable sort by start
line, then merge overlapping or adjacent neighbours. -/
def merge_line_ranges (ranges : List LineRange) : List LineRange :=
  if ranges.isEmpty then []
  else
    (List.insertionSort (fun a b : LineRange => a.startLine ≤ b.startLine) ranges).foldl
      merge_step []

/-! ## Checkpoint application and finalization
(`AuthorshipLog::apply_checkpoint`, `finalize`,
`from_working_log_with_base_commit_and_human_author`) -/

/-- `BTreeMap::entry(k).or_insert(v)`: insert only when absent. -/
def prompts_or_insert (ps : List (Str × PromptRecord)) (k : Str) (v : PromptRecord) :
    List (Str × PromptRecord) :=
  if (ps.lookup k).isSome then ps else ps ++ [(k, v)]

/-- The transcript refresh after `or_insert`: adopt the checkpoint's
transcript when it is strictly longer than the stored one. -/
def prompts_update_transcript (ps : List (Str × PromptRecord)) (k : Str)
    (msgs : List Str) : List (Str × PromptRecord) :=
  ps.map fun p =>
    if p.1 = k ∧ p.2.messages.length < msgs.length then
      (p.1, { p.2 with messages := msgs })
    else p

/-- Replace the attestation entries recorded for a file, creating the
file block at the end when absent (`get_or_create_file` followed by
`entries.clear()` and the re-adds). -/
def set_file_entries (atts : List FileAttestation) (file : Str)
    (es : List AttestationEntry) : List FileAttestation :=
  if atts.any (fun f => f.file_path = file) then
    atts.map (fun f => if f.file_path = file then { f with entries := es } else f)
  else atts ++ [⟨file, es⟩]

/-- One step of the author grouping: record the attribution's range
under its author (the source's `HashMap` entry-or-insert plus push). -/
def group_step (acc : List (Str × List LineRange)) (la : LineAttribution) :
    List (Str × List LineRange) :=
  let r :=
    if la.start_line = la.end_line then LineRange.Single la.start_line
    else LineRange.Range la.start_line la.end_line
  if (acc.lookup la.author_id).isSome then
    acc.map (fun p => if p.1 = la.author_id then (p.1, p.2 ++ [r]) else p)
  else acc ++ [(la.author_id, [r])]

/-- Group a checkpoint entry's line attributions by author, each line
attribution contributing one `Single` or `Range` (the source's `HashMap`
grouping, iterated in first-appearance order). -/
def group_line_attrs (las : List LineAttribution) : List (Str × List LineRange) :=
  las.foldl group_step []

/-- The attestation entries one checkpoint entry replaces a file's
entries with: the author groups, skipping the human sentinel. -/
def entry_attestations (e : WorkingLogEntry) : List AttestationEntry :=
  ((group_line_attrs e.line_attributions).filter
    (fun p => p.1 ≠ CheckpointKind.Human.to_str)).map
    (fun p => AttestationEntry.mk p.1 p.2)

/-- The per-entry step of `apply_checkpoint`'s file processing. -/
def apply_entry_step (atts : List FileAttestation) (e : WorkingLogEntry) :
    List FileAttestation :=
  set_file_entries atts e.file (entry_attestations e)

/-- The session-registration step of `apply_checkpoint`: insert or
refresh the prompt record for the checkpoint's agent, returning the new
prompt map and the session id (when the checkpoint is an AI one). -/
def register_session (shortHash : Str → Str → Str)
    (prompts : List (Str × PromptRecord)) (cp : Checkpoint)
    (human_author : Option Str) : List (Str × PromptRecord) × Option Str :=
  match cp.agent_id with
  | some agent =>
    let session_id := shortHash agent.id agent.tool
    let ps := prompts_or_insert prompts session_id
      { agent_id := agent
        human_author := human_author
        messages := cp.transcript.getD []
        total_additions := 0
        total_deletions := 0
        accepted_lines := 0
        overriden_lines := 0 }
    let ps :=
      match cp.transcript with
      | some t => prompts_update_transcript ps session_id t
      | none => ps
    (ps, some session_id)
  | none => (prompts, none)

/-- Embedding of `AuthorshipLog::apply_checkpoint`; the state is the log
plus the running per-session addition/deletion counters (the source's
`HashMap<String, u32>`s, modelled as total functions defaulting to 0). -/
def apply_checkpoint (shortHash : Str → Str → Str) (log : AuthorshipLog)
    (cp : Checkpoint) (human_author : Option Str) (adds dels : Str → Nat) :
    AuthorshipLog × (Str → Nat) × (Str → Nat) :=
  let reg := register_session shortHash log.metadata.prompts cp human_author
  let adds' :=
    match reg.2 with
    | some sid =>
      fun s => if s = sid then (adds s + cp.line_stats.additions_for_kind cp.kind) % U32M else adds s
    | none => adds
  let dels' :=
    match reg.2 with
    | some sid =>
      fun s => if s = sid then (dels s + cp.line_stats.deletions_for_kind cp.kind) % U32M else dels s
    | none => dels
  let attestations := cp.entries.foldl apply_entry_step log.attestations
  (⟨attestations, { log.metadata with prompts := reg.1 }⟩, adds', dels')

/-- The consolidation loop of `finalize`: accumulate runs of equal
hashes, emitting each run with its ranges merged. -/
def consolidate_go : Option (Str × List LineRange) → List AttestationEntry →
    List AttestationEntry
  | cur, [] =>
    match cur with
    | some hr => [⟨hr.1, merge_line_ranges hr.2⟩]
    | none => []
  | cur, e :: rest =>
    match cur with
    | some hr =>
      if e.hash = hr.1 then consolidate_go (some (hr.1, hr.2 ++ e.line_ranges)) rest
      else ⟨hr.1, merge_line_ranges hr.2⟩ :: consolidate_go (some (e.hash, e.line_ranges)) rest
    | none => consolidate_go (some (e.hash, e.line_ranges)) rest

/-- Consolidate same-hash entries of one file (second half of
`finalize`). -/
def consolidate_entries (es : List AttestationEntry) : List AttestationEntry :=
  consolidate_go none es

/-- One accumulation step of the accepted-line counting in `finalize`:
add the entry's covered line count to its hash's tally (`u32` addition). -/
def acc_step (f : Str → Nat) (e : AttestationEntry) : Str → Nat :=
  fun s =>
    if s = e.hash then (f s + (e.line_ranges.map count_line_range).sum) % U32M
    else f s

/-- The per-session accepted-line totals computed by `finalize` from the
final attestations (a `HashMap<String, u32>`, modelled as a function). -/
def session_accepted (atts : List FileAttestation) : Str → Nat :=
  atts.foldl (fun f fa => fa.entries.foldl acc_step f) (fun _ => 0)

/-- Number of lines covered by one attestation entry's line ranges. -/
def entry_line_count (e : AttestationEntry) : Nat :=
  (e.line_ranges.map count_line_range).sum

/-- Total attested line count of a log: the lines covered by the line
ranges of all attestation entries across all files. -/
def total_attested_lines (atts : List FileAttestation) : Nat :=
  (atts.map (fun fa => (fa.entries.map entry_line_count).sum)).sum

/-- The contribution of hash `k` to a list of entries' line counts. -/
def hash_line_sum (es : List AttestationEntry) (k : Str) : Nat :=
  (es.map (fun e => if e.hash = k then entry_line_count e else 0)).sum

/-- Embedding of `AuthorshipLog::finalize`. -/
def finalize (log : AuthorshipLog) (adds dels : Str → Nat) : AuthorshipLog :=
  let atts := log.attestations.map
    (fun fa => { fa with entries := fa.entries.filter (fun e => !e.line_ranges.isEmpty) })
  let atts := atts.filter (fun fa => !fa.entries.isEmpty)
  let atts := atts.map
    (fun fa =>
      { fa with
        entries := List.insertionSort (fun a b : AttestationEntry => strLeB a.hash b.hash = true)
          fa.entries })
  let atts := atts.map (fun fa => { fa with entries := consolidate_entries fa.entries })
  let acc := session_accepted atts
  let prompts := log.metadata.prompts.map
    (fun p =>
      (p.1,
        { p.2 with
          total_additions := adds p.1
          total_deletions := dels p.1
          accepted_lines := acc p.1 }))
  ⟨atts, { log.metadata with prompts := prompts }⟩

/-- The accumulation of the `INITIAL` prompt map into the fresh log's
metadata (`BTreeMap::insert` per pair). -/
def seed_prompts (initial_prompts : List (Str × PromptRecord)) :
    List (Str × PromptRecord) :=
  initial_prompts.foldl (fun ps p => alInsert ps p.1 p.2) []

/-- The per-checkpoint step of the conversion loop. -/
def fold_checkpoint_step (shortHash : Str → Str → Str) (human_author : Option Str)
    (st : AuthorshipLog × (Str → Nat) × (Str → Nat)) (cp : Checkpoint) :
    AuthorshipLog × (Str → Nat) × (Str → Nat) :=
  apply_checkpoint shortHash st.1 cp human_author st.2.1 st.2.2

/-- The conversion loop's end state: the freshly seeded log with every
checkpoint applied, along with the per-session counters. -/
def working_log_fold (shortHash : Str → Str → Str) (checkpoints : List Checkpoint)
    (base_commit_sha : Str) (human_author : Option Str)
    (initial_prompts : List (Str × PromptRecord)) :
    AuthorshipLog × (Str → Nat) × (Str → Nat) :=
  checkpoints.foldl (fold_checkpoint_step shortHash human_author)
    (⟨[], { AuthorshipMetadata.new with
            base_commit_sha := base_commit_sha
            prompts := seed_prompts initial_prompts }⟩,
      fun _ => 0, fun _ => 0)

/-- Embedding of
`AuthorshipLog::from_working_log_with_base_commit_and_human_author`.
`initial_prompts` is the seed from the `INITIAL` file (whether passed in
as `foreign_prompts` or read back from the working log — the two source
paths insert the same map); `ignore_prompts` is the process-wide config
flag. -/
def from_working_log_with_base_commit_and_human_author
    (shortHash : Str → Str → Str) (checkpoints : List Checkpoint)
    (base_commit_sha : Str) (human_author : Option Str)
    (initial_prompts : List (Str × PromptRecord)) (ignore_prompts : Bool) :
    AuthorshipLog :=
  let st := working_log_fold shortHash checkpoints base_commit_sha human_author
    initial_prompts
  let log := finalize st.1 st.2.1 st.2.2
  if ignore_prompts then
    ⟨log.attestations,
      { log.metadata with
        prompts := log.metadata.prompts.map (fun p => (p.1, { p.2 with messages := [] })) }⟩
  else log

/-! ## C6: `filter_to_committed_lines` and `cleanup_unused_prompts` -/

/-- All hashes referenced by the attestations (the source's
`HashSet`, modelled by list membership). -/
def referenced_hashes (atts : List FileAttestation) : List Str :=
  atts.flatMap (fun fa => fa.entries.map (fun e => e.hash))

/-- Embedding of `AuthorshipLog::cleanup_unused_prompts`. -/
def cleanup_unused_prompts (log : AuthorshipLog) : AuthorshipLog :=
  ⟨log.attestations,
    { log.metadata with
      prompts := log.metadata.prompts.filter
        (fun p => (referenced_hashes log.attestations).contains p.1) }⟩

/-- Canonical form of a range list (spec section 3, invariant 2): every
range is non-empty (`start ≤ end`) and successive ranges are sorted,
disjoint and non-adjacent. -/
def RangesCanonical (rs : List LineRange) : Prop :=
  (∀ r ∈ rs, r.startLine ≤ r.stopLine) ∧
    rs.Chain' (fun a b => a.stopLine + 1 < b.startLine)

/-- `Vec::dedup`: drop consecutive duplicates. -/
def dedupAdj : List Nat → List Nat
  | [] => []
  | [x] => [x]
  | x :: y :: rest => if x = y then dedupAdj (y :: rest) else x :: dedupAdj (y :: rest)

/-- The per-entry body of `filter_to_committed_lines`: expand the
entry's ranges, keep the committed lines, and recompress (clearing the
ranges when nothing survives). -/
def filter_entry_to_committed (committed_ranges : List LineRange)
    (e : AttestationEntry) : AttestationEntry :=
  let entry_lines := e.line_ranges.flatMap LineRange.expand
  let committed_lines := entry_lines.filter
    (fun l => committed_ranges.any (fun r => r.containsLine l))
  if !committed_lines.isEmpty then
    let sorted := dedupAdj (List.insertionSort (· ≤ ·) committed_lines)
    { e with line_ranges := LineRange.compress_lines sorted }
  else { e with line_ranges := [] }

/-- The per-file body of `filter_to_committed_lines`: filter each entry
to the file's committed ranges and drop emptied entries; a file with no
committed ranges loses all entries. -/
def filter_file (committed_hunks : Str → Option (List LineRange))
    (fa : FileAttestation) : FileAttestation :=
  match committed_hunks fa.file_path with
  | some committed_ranges =>
    { fa with
      entries := (fa.entries.map (filter_entry_to_committed committed_ranges)).filter
        (fun e => !e.line_ranges.isEmpty) }
  | none => { fa with entries := [] }

/-- Embedding of `AuthorshipLog::filter_to_committed_lines`; the
`committed_hunks` map is abstracted as its lookup function. -/
def filter_to_committed_lines (log : AuthorshipLog)
    (committed_hunks : Str → Option (List LineRange)) : AuthorshipLog :=
  let atts := log.attestations.map (filter_file committed_hunks)
  let atts := atts.filter (fun fa => !fa.entries.isEmpty)
  cleanup_unused_prompts ⟨atts, log.metadata⟩

/-! ## C1: the textual serialization format
(`serialize_to_string` / `deserialize_from_string`)

The text is modelled at the granularity the source itself works at: the
list of its lines (the serializer emits each line with a trailing
newline and the deserializer starts with `content.lines()`; no serialized
component may contain a newline, which the round-trip hypotheses
guarantee).  The JSON metadata block is produced and parsed by serde,
an external library: it enters as the `metaEnc`/`metaDec` codec
parameters, constrained only by a round-trip hypothesis. -/

/-- The ASCII character of one decimal digit. -/
def digitChar : Nat → Char
  | 0 => '0'
  | 1 => '1'
  | 2 => '2'
  | 3 => '3'
  | 4 => '4'
  | 5 => '5'
  | 6 => '6'
  | 7 => '7'
  | 8 => '8'
  | _ => '9'

/-- Decimal digits of a `u32`, least significant first (the recursion
behind Rust's integer `to_string`). -/
def natDigitsRev (n : Nat) : List Char :=
  if h : n < 10 then [digitChar n]
  else digitChar (n % 10) :: natDigitsRev (n / 10)
decreasing_by exact Nat.div_lt_self (Nat.lt_of_lt_of_le (by norm_num) (Nat.le_of_not_lt h)) (by norm_num)

/-- Rust `u32::to_string`: decimal representation. -/
def natToStr (n : Nat) : Str := (natDigitsRev n).reverse

/-- ASCII decimal digit test. -/
def isDigitCh (c : Char) : Bool := decide ('0' ≤ c) && decide (c ≤ '9')

/-- Value of a most-significant-first digit string. -/
def valOfDigits (cs : Str) : Nat := cs.foldl (fun a c => a * 10 + (c.toNat - 48)) 0

/-- The optional leading `+` accepted by Rust's `u32` parser. -/
def stripPlus (s : Str) : Str :=
  match s with
  | '+' :: rest => rest
  | _ => s

/-- Rust `str::parse::<u32>`: an optional leading `+`, then at least one
ASCII digit, rejecting values that overflow 32 bits. -/
def parseU32 (s : Str) : Option Nat :=
  let t := stripPlus s
  if t.isEmpty then none
  else if t.all isDigitCh then
    if valOfDigits t < U32M then some (valOfDigits t) else none
  else none

/-- Rust `str::split(c)` (always at least one part; an empty input gives
one empty part). -/
def splitOnChar (c : Char) : Str → List Str
  | [] => [[]]
  | x :: xs =>
    if x = c then [] :: splitOnChar c xs
    else
      match splitOnChar c xs with
      | h :: t => (x :: h) :: t
      | [] => [[x]]

/-- Textual form of one range (`format_line_ranges`'s per-element map). -/
def format_range : LineRange → Str
  | .Single n => natToStr n
  | .Range s e => natToStr s ++ ('-' :: natToStr e)

/-- Rust `Vec::join` on strings. -/
def joinSep (sep : Str) : List Str → Str
  | [] => []
  | [p] => p
  | p :: rest => p ++ sep ++ joinSep sep rest

/-- Embedding of `format_line_ranges`: stable sort by start line, then a
comma-separated render. -/
def format_line_ranges (ranges : List LineRange) : Str :=
  joinSep [',']
    ((List.insertionSort (fun a b : LineRange => a.startLine ≤ b.startLine) ranges).map
      format_range)

/-- The parsing loop of `parse_line_ranges` over the comma-separated
parts. -/
def parse_line_ranges_go : List Str → Except Unit (List LineRange)
  | [] => .ok []
  | part :: rest =>
    if part.isEmpty then parse_line_ranges_go rest
    else
      match part.findIdx? (fun c => c = '-') with
      | some i =>
        match parseU32 (part.take i), parseU32 (part.drop (i + 1)) with
        | some s, some e => (parse_line_ranges_go rest).map (LineRange.Range s e :: ·)
        | _, _ => .error ()
      | none =>
        match parseU32 part with
        | some l => (parse_line_ranges_go rest).map (LineRange.Single l :: ·)
        | none => .error ()

/-- Embedding of `parse_line_ranges`. -/
def parse_line_ranges (s : Str) : Except Unit (List LineRange) :=
  parse_line_ranges_go (splitOnChar ',' s)

/-- Embedding of `needs_quoting`. -/
def needs_quoting (path : Str) : Bool :=
  path.contains ' ' || path.contains '\t' || path.contains '\n'

/-- The serialized line of one attestation entry: two spaces, the hash,
one space, the ranges. -/
def serialize_entry_line (e : AttestationEntry) : Str :=
  ' ' :: ' ' :: (e.hash ++ (' ' :: format_line_ranges e.line_ranges))

/-- The serialized lines of one file block: the (possibly quoted) path,
then its entry lines. -/
def serialize_file_lines (fa : FileAttestation) : List Str :=
  (if needs_quoting fa.file_path then '"' :: (fa.file_path ++ ['"']) else fa.file_path)
    :: fa.entries.map serialize_entry_line

/-- The attestation section of `serialize_to_string`, line by line. -/
def serialize_attestations (atts : List FileAttestation) : List Str :=
  atts.flatMap serialize_file_lines

/-- The divider line. -/
def DIVIDER : Str := str "---"

/-- Embedding of `serialize_to_string` as the list of emitted lines. -/
def serialize_to_lines (metaEnc : AuthorshipMetadata → List Str)
    (log : AuthorshipLog) : List Str :=
  serialize_attestations log.attestations ++ [DIVIDER] ++ metaEnc log.metadata

/-- Rust `char::is_whitespace`: the Unicode `White_Space` property
(the full table used by `str::trim_end`). -/
def rustIsWs (c : Char) : Bool :=
  c.toNat = 0x09 || c.toNat = 0x0A || c.toNat = 0x0B || c.toNat = 0x0C ||
  c.toNat = 0x0D || c.toNat = 0x20 || c.toNat = 0x85 || c.toNat = 0xA0 ||
  c.toNat = 0x1680 ||
  c.toNat = 0x2000 || c.toNat = 0x2001 || c.toNat = 0x2002 || c.toNat = 0x2003 ||
  c.toNat = 0x2004 || c.toNat = 0x2005 || c.toNat = 0x2006 || c.toNat = 0x2007 ||
  c.toNat = 0x2008 || c.toNat = 0x2009 || c.toNat = 0x200A ||
  c.toNat = 0x2028 || c.toNat = 0x2029 || c.toNat = 0x202F || c.toNat = 0x205F ||
  c.toNat = 0x3000

/-- Rust `str::trim_end`. -/
def trimEnd (s : Str) : Str := (s.reverse.dropWhile rustIsWs).reverse

/-- The path parsing step of `parse_attestation_section` (quote
stripping is positional, as in the source, which never unescapes). -/
def parse_path_line (line : Str) : Str :=
  if line.head? = some '"' ∧ line.getLast? = some '"' then (line.drop 1).dropLast
  else line

/-- Flush the in-progress file block, keeping it only when it has
entries (both flush sites of the source do this). -/
def flush_current : Option FileAttestation → List FileAttestation
  | some fa => if !fa.entries.isEmpty then [fa] else []
  | none => []

/-- The line loop of `parse_attestation_section`, carrying the
in-progress file block. -/
def parse_attestation_go : Option FileAttestation → List Str →
    Except Unit (List FileAttestation)
  | cur, [] => .ok (flush_current cur)
  | cur, line0 :: rest =>
    let line := trimEnd line0
    if line.isEmpty then parse_attestation_go cur rest
    else if line.take 2 = str "  " then
      let entry_line := line.drop 2
      match entry_line.findIdx? (fun c => c = ' ') with
      | some i =>
        match parse_line_ranges (entry_line.drop (i + 1)) with
        | .ok lr =>
          match cur with
          | some fa =>
            parse_attestation_go
              (some { fa with entries := fa.entries ++ [⟨entry_line.take i, lr⟩] }) rest
          | none => .error ()
        | .error _ => .error ()
      | none => .error ()
    else
      (parse_attestation_go (some ⟨parse_path_line line, []⟩) rest).map
        (flush_current cur ++ ·)

/-- Embedding of `parse_attestation_section`. -/
def parse_attestation_section (lines : List Str) : Except Unit (List FileAttestation) :=
  parse_attestation_go none lines

/-- Split the content's lines at the first divider line
(`lines.iter().position(|l| l == "---")`). -/
def splitAtDivider : List Str → Option (List Str × List Str)
  | [] => none
  | l :: rest =>
    if l = DIVIDER then some ([], rest)
    else (splitAtDivider rest).map (fun p => (l :: p.1, p.2))

/-- Embedding of `deserialize_from_string` over the content's lines. -/
def deserialize_from_lines (metaDec : List Str → Except Unit AuthorshipMetadata)
    (lines : List Str) : Except Unit AuthorshipLog :=
  match splitAtDivider lines with
  | none => .error ()
  | some p =>
    match parse_attestation_section p.1 with
    | .error e => .error e
    | .ok attestations =>
      match metaDec p.2 with
      | .error e => .error e
      | .ok metadata => .ok ⟨attestations, metadata⟩

/-- Well-formedness of one serialized path: what the quoting grammar can
round-trip (spec, Design notes: paths with embedded newlines are
ill-formed; a path equal to the divider or an unquoted path wrapped in
literal quotes cannot survive either; an unquoted path must additionally
survive the deserializer's `trim_end`, i.e. not end in Unicode
whitespace — quoting only protects space, tab and newline, so e.g. a
trailing form feed would be stripped from the path line). -/
def GoodPath (p : Str) : Prop :=
  p ≠ [] ∧ '\n' ∉ p ∧ '\r' ∉ p ∧ p ≠ DIVIDER ∧
    (needs_quoting p = true ∨
      (¬(p.head? = some '"' ∧ p.getLast? = some '"') ∧ trimEnd p = p))

/-- Well-formedness of one attestation entry for the round trip: a hash
free of whitespace, and a non-empty, start-sorted range list with 32-bit
bounds. -/
def GoodEntry (e : AttestationEntry) : Prop :=
  (∀ c ∈ e.hash, rustIsWs c = false) ∧ e.line_ranges ≠ [] ∧
    e.line_ranges.Sorted (fun a b => a.startLine ≤ b.startLine) ∧
    ∀ r ∈ e.line_ranges, r.startLine < U32M ∧ r.stopLine < U32M

/-- Well-formedness of a log for the serialization round trip. -/
def GoodLog (log : AuthorshipLog) : Prop :=
  ∀ fa ∈ log.attestations,
    GoodPath fa.file_path ∧ fa.entries ≠ [] ∧ ∀ e ∈ fa.entries, GoodEntry e

/-! # Theorems -/

/-! ## C8 -/

theorem contains_eq_mem (l : List Nat) (a : Nat) : l.contains a = true ↔ a ∈ l :=
  List.elem_iff

/-- C8 counterexample: a file whose first 8000 bytes are null-free but
whose final byte is null is classified binary, so the classification is
not a function of a bounded prefix — it reads the entire file. -/
theorem c8_counterexample :
    is_text_file (some FsKind.file) (some (List.replicate 8000 97 ++ [0])) = false ∧
      ((List.replicate 8000 97 ++ [0]).take 8000).contains 0 = false := by
  constructor
  · have hred : is_text_file (some FsKind.file) (some (List.replicate 8000 97 ++ [0]))
        = !(List.replicate 8000 97 ++ [0]).contains 0 := rfl
    have hmem : (0 : Nat) ∈ List.replicate 8000 97 ++ [0] :=
      List.mem_append_right _ (List.mem_singleton.2 rfl)
    rw [hred, (contains_eq_mem _ _).2 hmem]
    rfl
  · have ht : (List.replicate 8000 (97 : Nat) ++ [0]).take 8000 = List.replicate 8000 97 := by
      have h := List.take_left (List.replicate 8000 (97 : Nat)) [0]
      rwa [List.length_replicate] at h
    rw [ht]
    cases hc : (List.replicate 8000 (97 : Nat)).contains 0 with
    | false => rfl
    | true =>
      have := List.eq_of_mem_replicate ((contains_eq_mem _ _).1 hc)
      omega

/-- C8 (amended): a tracked path is classified as text exactly when its
metadata reports a regular file, its bytes are readable, and no byte of
the entire content — not merely of a bounded prefix — is a null byte. -/
theorem c8_text_iff_no_null_anywhere (metadata : Option FsKind) (content : Option (List Nat)) :
    is_text_file metadata content = true ↔
      metadata = some FsKind.file ∧ ∃ bytes, content = some bytes ∧ ∀ b ∈ bytes, b ≠ 0 := by
  cases metadata with
  | none => simp [is_text_file]
  | some k =>
    cases k with
    | other =>
      constructor
      · intro h
        exact absurd h (by rw [show is_text_file (some FsKind.other) content = false from rfl]; simp)
      · rintro ⟨h, -⟩
        simp at h
    | file =>
      cases content with
      | none =>
        constructor
        · intro h
          exact absurd h (by rw [show is_text_file (some FsKind.file) none = false from rfl]; simp)
        · rintro ⟨-, bs, hbs, -⟩
          cases hbs
      | some bytes =>
        have hred : is_text_file (some FsKind.file) (some bytes) = !bytes.contains 0 := rfl
        rw [hred]
        constructor
        · intro h
          refine ⟨rfl, bytes, rfl, ?_⟩
          intro b hb hb0
          subst hb0
          rw [(contains_eq_mem _ _).2 hb] at h
          exact absurd h (by simp)
        · rintro ⟨-, bs, hbs, h⟩
          cases hbs
          cases hmem : bytes.contains 0 with
          | false => rfl
          | true => exact absurd ((contains_eq_mem _ _).1 hmem) (fun hm => h 0 hm rfl)

/-! ## C7 -/

/-- C7 counterexample: a single malformed (for instance truncated) line
makes `read_all_checkpoints` return an error instead of the successfully
parsed checkpoints. -/
theorem c7_counterexample :
    read_all_checkpoints (some [JsonlLine.malformed]) = .error () := rfl

/-- C7 (amended): `read_all_checkpoints` tolerates a missing file
(returning the empty list) and silently drops blank lines and lines with
a mismatched `api_version`, returning exactly the current-version
checkpoints in order — but only on input without malformed lines; any
malformed or truncated line is a hard error, not tolerated. -/
theorem c7_reader_filters_versions (lines : List JsonlLine)
    (h : JsonlLine.malformed ∉ lines) :
    read_all_checkpoints (some lines) =
        .ok (lines.filterMap fun l =>
          match l with
          | .parsed cp =>
            if cp.api_version = CHECKPOINT_API_VERSION then some cp else none
          | _ => none) ∧
      read_all_checkpoints none = .ok [] := by
  refine ⟨?_, rfl⟩
  show read_checkpoint_lines lines = _
  induction lines with
  | nil => rfl
  | cons l rest ih =>
    have hrest : JsonlLine.malformed ∉ rest := fun hm => h (List.mem_cons_of_mem _ hm)
    have hr := ih hrest
    cases l with
    | blank =>
      rw [show read_checkpoint_lines (.blank :: rest) = read_checkpoint_lines rest from rfl,
        List.filterMap_cons]
      exact hr
    | malformed => exact absurd (List.mem_cons_self _ _) h
    | parsed cp =>
      by_cases hv : cp.api_version = CHECKPOINT_API_VERSION
      · have hstep : read_checkpoint_lines (.parsed cp :: rest)
            = (read_checkpoint_lines rest).map (cp :: ·) := by
          rw [read_checkpoint_lines]
          rw [if_neg (by simp [hv])]
        rw [hstep, hr, List.filterMap_cons]
        simp [hv, Except.map]
      · have hstep : read_checkpoint_lines (.parsed cp :: rest)
            = read_checkpoint_lines rest := by
          rw [read_checkpoint_lines]
          rw [if_pos hv]
        rw [hstep, hr, List.filterMap_cons]
        simp [hv]

/-- C7 witness: a blank line, a wrong-version line and a current-version
line yield exactly the current-version checkpoint. -/
theorem c7_reader_filters_versions_witness :
    read_all_checkpoints
        (some [JsonlLine.blank,
          JsonlLine.parsed ⟨str "checkpoint/0.9.0", .Human, str "a", none, none, {}, []⟩,
          JsonlLine.parsed ⟨CHECKPOINT_API_VERSION, .Human, str "b", none, none, {}, []⟩]) =
      .ok [⟨CHECKPOINT_API_VERSION, .Human, str "b", none, none, {}, []⟩] := by
  have h := c7_reader_filters_versions
    [JsonlLine.blank,
      JsonlLine.parsed ⟨str "checkpoint/0.9.0", .Human, str "a", none, none, {}, []⟩,
      JsonlLine.parsed ⟨CHECKPOINT_API_VERSION, .Human, str "b", none, none, {}, []⟩]
    (by decide)
  rw [h.1]
  rfl

/-! ## C9 -/

/-- C9 counterexample: after a successful conflict-free stash apply with
distinct original and target heads, no reconstruction is run when the
original commit's working log has no checkpoints — the claim's
unconditional "otherwise the reconstruction is run" fails. -/
theorem c9_counterexample :
    process_stash_apply (.ok false) (.ok (str "s")) (fun _ => .ok (str "aaa"))
        (some (str "bbb")) (fun _ => .ok []) = .untouched ∧
      str "aaa" ≠ str "bbb" := by
  exact ⟨rfl, by decide⟩

/-- C9 (amended): when the stash ref and its first parent resolve, a
matching original and target head always leaves the working log
untouched; and when they differ, the reset-style reconstruction runs
between them provided additionally that no conflict is present and the
original head's working log holds at least one checkpoint (otherwise
nothing is reconstructed). -/
theorem c9_stash_apply_behavior (hasConflicts : Except Unit Bool)
    (stashCommit : Except Unit Str) (originalHeadOf : Str → Except Unit Str)
    (targetHead : Option Str) (checkpointsOf : Str → Except Unit (List Checkpoint))
    (sc original target : Str) (cps : List Checkpoint)
    (hsc : stashCommit = .ok sc) (hoh : originalHeadOf sc = .ok original)
    (htgt : targetHead = some target) :
    (original = target →
      process_stash_apply hasConflicts stashCommit originalHeadOf targetHead checkpointsOf
        = .untouched) ∧
    (hasConflicts ≠ .ok true → original ≠ target → checkpointsOf original = .ok cps →
      cps ≠ [] →
      process_stash_apply hasConflicts stashCommit originalHeadOf targetHead checkpointsOf
        = .reconstructed target original) := by
  subst hsc htgt
  constructor
  · intro heq
    subst heq
    unfold process_stash_apply
    cases hasConflicts with
    | error e => simp [hoh]
    | ok b => cases b <;> simp [hoh]
  · intro hnc hne hcps hne2
    unfold process_stash_apply
    have hb : (!(match checkpointsOf original with
        | .ok cps => !cps.isEmpty
        | .error _ => false)) = false := by
      rw [hcps]
      simp [List.isEmpty_iff, hne2]
    cases hasConflicts with
    | error e =>
      simp only [hoh, hcps]
      rw [if_neg hne]
      simp [List.isEmpty_iff, hne2]
    | ok b =>
      cases b with
      | true => exact absurd rfl hnc
      | false =>
        simp only [hoh, hcps]
        rw [if_neg hne]
        simp [List.isEmpty_iff, hne2]

/-- C9 witness: with a resolvable stash, no conflicts, distinct heads and
a one-checkpoint working log, reconstruction runs from the original to
the target head; with equal heads the log is untouched. -/
theorem c9_stash_apply_behavior_witness :
    process_stash_apply (.ok false) (.ok (str "s")) (fun _ => .ok (str "aaa"))
        (some (str "bbb"))
        (fun _ => .ok [⟨CHECKPOINT_API_VERSION, .Human, str "h", none, none, {}, []⟩])
      = .reconstructed (str "bbb") (str "aaa") :=
  (c9_stash_apply_behavior (.ok false) (.ok (str "s")) (fun _ => .ok (str "aaa"))
    (some (str "bbb"))
    (fun _ => .ok [⟨CHECKPOINT_API_VERSION, .Human, str "h", none, none, {}, []⟩])
    (str "s") (str "aaa") (str "bbb")
    [⟨CHECKPOINT_API_VERSION, .Human, str "h", none, none, {}, []⟩]
    rfl rfl rfl).2 (by intro h; simp at h) (by decide) rfl (by decide)

/-! ## C4 -/

/-- C4: across a checkpoint sequence, the cumulative
`line_stats.overrides` counter computed for the next checkpoint is at
least the previous checkpoint's counter (absent 32-bit overflow), and a
line already marked overridden in the most recent previous entry for a
file is excluded from that file's newly counted override set, so the same
`(file, line)` transition is never counted twice. -/
theorem c4_override_monotonicity (total_additions total_deletions : Nat)
    (previous_checkpoints : List Checkpoint) (entries : List WorkingLogEntry)
    (kind : CheckpointKind) (last : Checkpoint)
    (hlast : previous_checkpoints.getLast? = some last)
    (hbound : last.line_stats.overrides +
        entries.foldl
          (fun n e => n + (entry_new_overrides (previous_file_state previous_checkpoints) e).card)
          0 < U32M) :
    last.line_stats.overrides ≤
        (compute_line_stats total_additions total_deletions previous_checkpoints entries
          kind).overrides ∧
      ∀ e ∈ entries, ∀ l,
        l ∈ (((previous_file_state previous_checkpoints).lookup e.file).map
            (fun p => collect_overridden_lines p.2)).getD ∅ →
        l ∉ entry_new_overrides (previous_file_state previous_checkpoints) e := by
  constructor
  · have hov : (compute_line_stats total_additions total_deletions previous_checkpoints entries
        kind).overrides =
        (last.line_stats.overrides +
          entries.foldl
            (fun n e =>
              n + (entry_new_overrides (previous_file_state previous_checkpoints) e).card)
            0) % U32M := by
      unfold compute_line_stats
      rw [hlast]
      cases kind <;> rfl
    rw [hov, Nat.mod_eq_of_lt hbound]
    exact Nat.le_add_right _ _
  · intro e _ l hl hmem
    rw [entry_new_overrides, Finset.mem_sdiff] at hmem
    exact hmem.2 hl

/-- C4 witness at a one-checkpoint history with no new entries. -/
theorem c4_override_monotonicity_witness :
    (1 : Nat) ≤
        (compute_line_stats 0 0
          [⟨CHECKPOINT_API_VERSION, .Human, str "h", none, none, { overrides := 1 }, []⟩]
          [] .Human).overrides ∧
      ∀ e ∈ ([] : List WorkingLogEntry), ∀ l,
        l ∈ (((previous_file_state
              [⟨CHECKPOINT_API_VERSION, .Human, str "h", none, none, { overrides := 1 }, []⟩]).lookup
            e.file).map (fun p => collect_overridden_lines p.2)).getD ∅ →
        l ∉ entry_new_overrides
          (previous_file_state
            [⟨CHECKPOINT_API_VERSION, .Human, str "h", none, none, { overrides := 1 }, []⟩]) e :=
  c4_override_monotonicity 0 0
    [⟨CHECKPOINT_API_VERSION, .Human, str "h", none, none, { overrides := 1 }, []⟩] [] .Human
    ⟨CHECKPOINT_API_VERSION, .Human, str "h", none, none, { overrides := 1 }, []⟩
    rfl (by decide)

/-! ## C10 -/

/-- C10: when the blob recorded by a previous checkpoint cannot be read
back from the blob store, the previous content is taken to be the empty
string, the file's whole current content becomes one fresh insertion
attributed to the current checkpoint's author, and the run returns
successfully instead of failing with a missing-blob error.  The
attribution tracker is characterised by its spec (section 4.2): diffing
empty against `c` yields a single insertion attributed to the new
author. -/
theorem c10_missing_blob_treated_as_empty
    (shortHash : Str → Str → Str)
    (attr_unattr : Str → List Attribution → Str → Nat → List Attribution)
    (update : Str → Str → List Attribution → Str → Nat → Except Unit (List Attribution))
    (toLineAttrs : List Attribution → Str → List LineAttribution)
    (readFile getFileVersion : Str → Option Str)
    (kind : CheckpointKind) (f c bh : Str) (battrs : List Attribution)
    (hashes : Str → Option Str) (cps : List Checkpoint) (agent : Option AgentId) (ts : Nat)
    (hread : readFile f = some c) (hc : c ≠ [])
    (hprev : (prev_hashes_with_attributions cps).lookup f = some (bh, battrs))
    (hmiss : getFileVersion bh = none)
    (hupd : ∀ a, update [] c a (subsequent_author_id shortHash kind agent) ts
      = .ok [⟨0, c.length, subsequent_author_id shortHash kind agent, ts⟩]) :
    get_subsequent_checkpoint_entries shortHash attr_unattr update toLineAttrs readFile
        getFileVersion kind [f] hashes cps agent ts
      = .ok [⟨f, (hashes f).getD [],
          [⟨0, c.length, subsequent_author_id shortHash kind agent, ts⟩],
          toLineAttrs [⟨0, c.length, subsequent_author_id shortHash kind agent, ts⟩] c⟩] := by
  unfold get_subsequent_checkpoint_entries
  rw [subsequent_entries_go, hread, hprev]
  simp only [Option.getD_some]
  rw [hmiss]
  simp only [Option.getD_none]
  rw [if_neg hc]
  rw [make_entry_for_file, hupd]
  rfl

/-- C10 witness: a concrete one-file run with a dangling blob hash. -/
theorem c10_missing_blob_treated_as_empty_witness :
    get_subsequent_checkpoint_entries (fun _ _ => []) (fun _ a _ _ => a)
        (fun _ c _ auth ts => .ok [⟨0, c.length, auth, ts⟩]) (fun _ _ => [])
        (fun _ => some (str "x")) (fun _ => none) .Human [str "f"] (fun _ => some (str "bsha"))
        [⟨CHECKPOINT_API_VERSION, .Human, str "h", none, none, {},
          [⟨str "f", str "deadbeef", [], []⟩]⟩] none 7
      = .ok [⟨str "f", str "bsha", [⟨0, 1, str "human", 7⟩],
          []⟩] := by
  have h := c10_missing_blob_treated_as_empty (fun _ _ => []) (fun _ a _ _ => a)
    (fun _ c _ auth ts => .ok [⟨0, c.length, auth, ts⟩]) (fun _ _ => [])
    (fun _ => some (str "x")) (fun _ => none) .Human (str "f") (str "x") (str "deadbeef") []
    (fun _ => some (str "bsha"))
    [⟨CHECKPOINT_API_VERSION, .Human, str "h", none, none, {},
      [⟨str "f", str "deadbeef", [], []⟩]⟩] none 7
    rfl (by decide) rfl rfl (fun _ => rfl)
  rw [h]
  rfl

/-! ## C3 -/

/-- C3 counterexample: the transformer's empty-content branch preserves
the source attributions without filtering, so a dummy attribution already
present in the source survives into the result for a file whose final
content is empty; the claim's unconditional "no attribution in the
result is dummy" fails. -/
theorem c3_counterexample :
    transform_attributions_to_final_state (fun _ _ _ _ _ => .ok []) (fun _ _ => [])
        ⟨str "b", [(str "a", ([⟨0, 1, DUMMY_AUTHOR, 0⟩], []))], [(str "a", str "x")], [], 0⟩
        [(str "a", [])] none
      = .ok ⟨str "b", [(str "a", ([⟨0, 1, DUMMY_AUTHOR, 0⟩], []))], [(str "a", str "x")], [], 0⟩ ∧
      (⟨0, 1, DUMMY_AUTHOR, 0⟩ : Attribution).author_id = DUMMY_AUTHOR :=
  ⟨rfl, rfl⟩

theorem transform_one_file_shape
    (update : Str → Str → List Attribution → Str → Nat → Except Unit (List Attribution))
    (toLineAttrs : List Attribution → Str → List LineAttribution)
    (source_va : VirtualAttributions) (ohs : Option VirtualAttributions)
    (fp fc : Str) (pair : List Attribution × List LineAttribution)
    (h : transform_one_file update toLineAttrs source_va ohs fp fc = .ok pair) :
    (∀ a ∈ pair.1, a.author_id ≠ DUMMY_AUTHOR) ∧ pair.2 = toLineAttrs pair.1 fc := by
  unfold transform_one_file at h
  cases hE : (match source_va.get_char_attributions fp, source_va.get_file_content fp with
    | some attrs, some content => update content fc attrs DUMMY_AUTHOR source_va.timestamp
    | _, _ => Except.ok []) with
  | error e => rw [hE] at h; exact absurd h (by simp)
  | ok t0 =>
    rw [hE] at h
    simp only [Except.ok.injEq] at h
    subst h
    constructor
    · intro a ha
      have := List.mem_filter.1 ha
      simpa using this.2
    · rfl

theorem transform_go_dummy_free
    (update : Str → Str → List Attribution → Str → Nat → Except Unit (List Attribution))
    (toLineAttrs : List Attribution → Str → List LineAttribution)
    (source_va : VirtualAttributions) (ohs : Option VirtualAttributions)
    (hsrcA : ∀ f attrs, source_va.get_char_attributions f = some attrs →
      ∀ a ∈ attrs, a.author_id ≠ DUMMY_AUTHOR)
    (hsrcL : ∀ f las, source_va.get_line_attributions f = some las →
      ∀ la ∈ las, la.author_id ≠ DUMMY_AUTHOR)
    (hla : ∀ attrs c la, la ∈ toLineAttrs attrs c → ∃ a ∈ attrs, la.author_id = a.author_id) :
    ∀ (fs : List (Str × Str)) r,
      transform_go update toLineAttrs source_va ohs fs = .ok r →
      ∀ p ∈ r.1, (∀ a ∈ p.2.1, a.author_id ≠ DUMMY_AUTHOR) ∧
        (∀ la ∈ p.2.2, la.author_id ≠ DUMMY_AUTHOR) := by
  intro fs
  induction fs with
  | nil =>
    intro r h
    rw [transform_go] at h
    simp only [Except.ok.injEq] at h
    subst h
    intro p hp
    exact absurd hp (List.not_mem_nil p)
  | cons hd rest ih =>
    intro r h
    obtain ⟨fp, fc⟩ := hd
    rw [transform_go] at h
    by_cases hfc : fc.isEmpty
    · rw [if_pos hfc] at h
      cases hA : source_va.get_char_attributions fp with
      | none =>
        rw [hA] at h
        cases hB : source_va.get_file_content fp <;> [rw [hB] at h; rw [hB] at h] <;>
          cases hC : source_va.get_line_attributions fp <;>
            [rw [hC] at h; rw [hC] at h; rw [hC] at h; rw [hC] at h] <;>
          exact ih r h
      | some sa =>
        rw [hA] at h
        cases hB : source_va.get_file_content fp with
        | none =>
          rw [hB] at h
          cases hC : source_va.get_line_attributions fp <;> [rw [hC] at h; rw [hC] at h] <;>
            exact ih r h
        | some sc =>
          rw [hB] at h
          cases hC : source_va.get_line_attributions fp with
          | none => rw [hC] at h; exact ih r h
          | some sla =>
            rw [hC] at h
            cases hrest : transform_go update toLineAttrs source_va ohs rest with
            | error e => rw [hrest] at h; exact absurd h (by simp [Except.map])
            | ok r' =>
              rw [hrest] at h
              simp only [Except.map, Except.ok.injEq] at h
              subst h
              intro p hp
              rcases List.mem_cons.1 hp with hp1 | hp2
              · subst hp1
                exact ⟨hsrcA fp sa hA, hsrcL fp sla hC⟩
              · exact ih r' hrest p hp2
    · rw [if_neg hfc] at h
      cases hone : transform_one_file update toLineAttrs source_va ohs fp fc with
      | error e => rw [hone] at h; exact absurd h (by simp)
      | ok pair =>
        rw [hone] at h
        cases hrest : transform_go update toLineAttrs source_va ohs rest with
        | error e => rw [hrest] at h; exact absurd h (by simp [Except.map])
        | ok r' =>
          rw [hrest] at h
          simp only [Except.map, Except.ok.injEq] at h
          subst h
          intro p hp
          rcases List.mem_cons.1 hp with hp1 | hp2
          · subst hp1
            have hs := transform_one_file_shape update toLineAttrs source_va ohs fp fc pair hone
            refine ⟨hs.1, ?_⟩
            intro la hla2
            rw [hs.2] at hla2
            obtain ⟨a, ha, heq⟩ := hla pair.1 fc la hla2
            rw [heq]
            exact hs.1 a ha
          · exact ih r' hrest p hp2

/-- C3 (amended): provided the source virtual-attribution state itself
contains no `__DUMMY__` attribution (the sentinel is internal to a single
transform run) and line attributions only carry authors of the character
attributions they derive from (spec section 4.2), every successful run of
the transform yields a result in which no character or line attribution
carries the dummy author: for non-empty final contents the transformer
filters dummies before emission, and empty-content files only inherit the
(dummy-free) source state.  Consequently no emission from the result can
contain the sentinel. -/
theorem c3_transform_emits_no_dummy
    (update : Str → Str → List Attribution → Str → Nat → Except Unit (List Attribution))
    (toLineAttrs : List Attribution → Str → List LineAttribution)
    (source_va : VirtualAttributions) (final_state : List (Str × Str))
    (original_head_state : Option VirtualAttributions) (result : VirtualAttributions)
    (hsrcA : ∀ f attrs, source_va.get_char_attributions f = some attrs →
      ∀ a ∈ attrs, a.author_id ≠ DUMMY_AUTHOR)
    (hsrcL : ∀ f las, source_va.get_line_attributions f = some las →
      ∀ la ∈ las, la.author_id ≠ DUMMY_AUTHOR)
    (hla : ∀ attrs c la, la ∈ toLineAttrs attrs c → ∃ a ∈ attrs, la.author_id = a.author_id)
    (hok : transform_attributions_to_final_state update toLineAttrs source_va final_state
      original_head_state = .ok result) :
    ∀ p ∈ result.attributions,
      (∀ a ∈ p.2.1, a.author_id ≠ DUMMY_AUTHOR) ∧
        (∀ la ∈ p.2.2, la.author_id ≠ DUMMY_AUTHOR) := by
  unfold transform_attributions_to_final_state at hok
  cases hgo : transform_go update toLineAttrs source_va original_head_state final_state with
  | error e => rw [hgo] at hok; exact absurd hok (by simp [Except.map])
  | ok r =>
    rw [hgo] at hok
    simp only [Except.map, Except.ok.injEq] at hok
    subst hok
    intro p hp
    exact transform_go_dummy_free update toLineAttrs source_va original_head_state
      hsrcA hsrcL hla final_state r hgo p hp

/-- C3 witness: a dummy-free one-file source transformed to new content
keeps its non-dummy author. -/
theorem c3_transform_emits_no_dummy_witness :
    (⟨0, 1, str "x", 0⟩ : Attribution).author_id ≠ DUMMY_AUTHOR := by
  have hmain := c3_transform_emits_no_dummy
    (fun _ _ _ auth ts => .ok [⟨0, 1, auth, ts⟩]) (fun _ _ => [])
    ⟨str "b", [(str "a", ([⟨0, 1, str "x", 0⟩], []))], [(str "a", str "x")], [], 0⟩
    [(str "a", [])] none
    ⟨str "b", [(str "a", ([⟨0, 1, str "x", 0⟩], []))], [(str "a", str "x")], [], 0⟩
    (by
      intro f attrs h
      by_cases hf : f = str "a"
      · subst hf
        simp only [VirtualAttributions.get_char_attributions, List.lookup,
          show ((str "a" == str "a") = true) by decide, if_pos] at h
        cases h
        decide
      · simp only [VirtualAttributions.get_char_attributions, List.lookup] at h
        rw [show (f == str "a") = false from by rw [beq_eq_false_iff_ne]; exact hf] at h
        simp at h)
    (by
      intro f las h
      by_cases hf : f = str "a"
      · subst hf
        simp only [VirtualAttributions.get_line_attributions, List.lookup,
          show ((str "a" == str "a") = true) by decide, if_pos] at h
        cases h
        intro la hla
        exact absurd hla (List.not_mem_nil la)
      · simp only [VirtualAttributions.get_line_attributions, List.lookup] at h
        rw [show (f == str "a") = false from by rw [beq_eq_false_iff_ne]; exact hf] at h
        simp at h)
    (by intro attrs c la h; exact absurd h (List.not_mem_nil la))
    rfl
  have hp := hmain (str "a", ([⟨0, 1, str "x", 0⟩], [])) (by simp)
  exact hp.1 ⟨0, 1, str "x", 0⟩ (by simp)

/-! ## C2 helper lemmas -/

theorem lookup_isSome_mem_keys {β : Type} (ps : List (Str × β)) (k : Str)
    (h : (ps.lookup k).isSome) : k ∈ ps.map Prod.fst := by
  induction ps with
  | nil => simp [List.lookup] at h
  | cons p rest ih =>
    obtain ⟨k1, v1⟩ := p
    by_cases hk : k = k1
    · subst hk
      exact List.mem_cons_self _ _
    · simp only [List.lookup,
        show (k == k1) = false from by rw [beq_eq_false_iff_ne]; exact hk] at h
      simp only [List.map_cons, List.mem_cons]
      exact Or.inr (ih h)

theorem keys_or_insert_mono (ps : List (Str × PromptRecord)) (k : Str) (v : PromptRecord)
    (k0 : Str) (h : k0 ∈ ps.map Prod.fst) :
    k0 ∈ (prompts_or_insert ps k v).map Prod.fst := by
  unfold prompts_or_insert
  by_cases hs : (ps.lookup k).isSome
  · rw [if_pos hs]
    exact h
  · rw [if_neg hs, List.map_append]
    exact List.mem_append_left _ h

theorem key_mem_or_insert (ps : List (Str × PromptRecord)) (k : Str) (v : PromptRecord) :
    k ∈ (prompts_or_insert ps k v).map Prod.fst := by
  unfold prompts_or_insert
  by_cases hs : (ps.lookup k).isSome
  · rw [if_pos hs]
    exact lookup_isSome_mem_keys ps k hs
  · rw [if_neg hs, List.map_append]
    exact List.mem_append_right _ (List.mem_singleton.2 rfl)

theorem keys_update_transcript (ps : List (Str × PromptRecord)) (k : Str) (msgs : List Str) :
    (prompts_update_transcript ps k msgs).map Prod.fst = ps.map Prod.fst := by
  unfold prompts_update_transcript
  rw [List.map_map]
  congr 1
  funext p
  by_cases hc : p.1 = k ∧ p.2.messages.length < msgs.length
  · simp [hc]
  · simp [hc]

theorem apply_checkpoint_prompts (shortHash : Str → Str → Str) (log : AuthorshipLog)
    (cp : Checkpoint) (ha : Option Str) (adds dels : Str → Nat) :
    (apply_checkpoint shortHash log cp ha adds dels).1.metadata.prompts
      = (register_session shortHash log.metadata.prompts cp ha).1 := rfl

theorem register_session_keys_mono (shortHash : Str → Str → Str)
    (prompts : List (Str × PromptRecord)) (cp : Checkpoint) (ha : Option Str) (k0 : Str)
    (h : k0 ∈ prompts.map Prod.fst) :
    k0 ∈ (register_session shortHash prompts cp ha).1.map Prod.fst := by
  unfold register_session
  cases hag : cp.agent_id with
  | none => exact h
  | some ag =>
    cases ht : cp.transcript with
    | none =>
      simp only [ht]
      exact keys_or_insert_mono prompts _ _ k0 h
    | some t =>
      simp only [ht]
      rw [keys_update_transcript]
      exact keys_or_insert_mono prompts _ _ k0 h

theorem apply_checkpoint_keys_mono (shortHash : Str → Str → Str) (log : AuthorshipLog)
    (cp : Checkpoint) (ha : Option Str) (adds dels : Str → Nat) (k0 : Str)
    (h : k0 ∈ log.metadata.prompts.map Prod.fst) :
    k0 ∈ (apply_checkpoint shortHash log cp ha adds dels).1.metadata.prompts.map Prod.fst := by
  rw [apply_checkpoint_prompts]
  exact register_session_keys_mono shortHash log.metadata.prompts cp ha k0 h

theorem apply_checkpoint_agent_key (shortHash : Str → Str → Str) (log : AuthorshipLog)
    (cp : Checkpoint) (ha : Option Str) (adds dels : Str → Nat) (ag : AgentId)
    (hag : cp.agent_id = some ag) :
    shortHash ag.id ag.tool ∈
      (apply_checkpoint shortHash log cp ha adds dels).1.metadata.prompts.map Prod.fst := by
  rw [apply_checkpoint_prompts]
  unfold register_session
  rw [hag]
  cases ht : cp.transcript with
  | none =>
    simp only [ht]
    exact key_mem_or_insert log.metadata.prompts _ _
  | some t =>
    simp only [ht]
    rw [keys_update_transcript]
    exact key_mem_or_insert log.metadata.prompts _ _

theorem mem_referenced_hashes (atts : List FileAttestation) (h : Str) :
    h ∈ referenced_hashes atts ↔ ∃ fa ∈ atts, ∃ e ∈ fa.entries, e.hash = h := by
  unfold referenced_hashes
  rw [List.mem_flatMap]
  constructor
  · rintro ⟨fa, hfa, hm⟩
    obtain ⟨e, he, heq⟩ := List.mem_map.1 hm
    exact ⟨fa, hfa, e, he, heq⟩
  · rintro ⟨fa, hfa, e, he, heq⟩
    exact ⟨fa, hfa, List.mem_map.2 ⟨e, he, heq⟩⟩

theorem referenced_set_file_entries (atts : List FileAttestation) (f : Str)
    (es : List AttestationEntry) (h : Str)
    (hm : h ∈ referenced_hashes (set_file_entries atts f es)) :
    h ∈ referenced_hashes atts ∨ h ∈ es.map (fun e => e.hash) := by
  unfold set_file_entries at hm
  split at hm
  · obtain ⟨fa, hfa, e, he, heq⟩ := (mem_referenced_hashes _ _).1 hm
    obtain ⟨fa0, hfa0, hfeq⟩ := List.mem_map.1 hfa
    by_cases hp : fa0.file_path = f
    · rw [if_pos hp] at hfeq
      subst hfeq
      exact Or.inr (List.mem_map.2 ⟨e, he, heq⟩)
    · rw [if_neg hp] at hfeq
      subst hfeq
      exact Or.inl ((mem_referenced_hashes _ _).2 ⟨fa0, hfa0, e, he, heq⟩)
  · obtain ⟨fa, hfa, e, he, heq⟩ := (mem_referenced_hashes _ _).1 hm
    rcases List.mem_append.1 hfa with h1 | h2
    · exact Or.inl ((mem_referenced_hashes _ _).2 ⟨fa, h1, e, he, heq⟩)
    · rcases List.mem_singleton.1 h2 with rfl
      exact Or.inr (List.mem_map.2 ⟨e, he, heq⟩)

theorem group_step_keys (acc : List (Str × List LineRange)) (la : LineAttribution)
    (k : Str) (h : k ∈ (group_step acc la).map Prod.fst) :
    k ∈ acc.map Prod.fst ∨ k = la.author_id := by
  unfold group_step at h
  by_cases hs : (acc.lookup la.author_id).isSome
  · rw [if_pos hs] at h
    obtain ⟨q, hq, heq⟩ := List.mem_map.1 h
    obtain ⟨q0, hq0, hq0e⟩ := List.mem_map.1 hq
    by_cases hqk : q0.1 = la.author_id
    · rw [if_pos hqk] at hq0e
      subst hq0e
      have hk : q0.1 = k := heq
      exact Or.inr (by rw [← hk]; exact hqk)
    · rw [if_neg hqk] at hq0e
      subst hq0e
      exact Or.inl (List.mem_map.2 ⟨q0, hq0, heq⟩)
  · rw [if_neg hs, List.map_append] at h
    rcases List.mem_append.1 h with ha | hb
    · exact Or.inl ha
    · simp only [List.map_cons, List.map_nil, List.mem_singleton] at hb
      exact Or.inr hb

theorem group_fold_keys (p : Str × List LineRange) :
    ∀ (las : List LineAttribution) (acc : List (Str × List LineRange)),
      p ∈ las.foldl group_step acc →
      p.1 ∈ acc.map Prod.fst ∨ p.1 ∈ las.map (fun la => la.author_id) := by
  intro las
  induction las with
  | nil =>
    intro acc h
    rw [List.foldl_nil] at h
    exact Or.inl (List.mem_map.2 ⟨p, h, rfl⟩)
  | cons la rest ih =>
    intro acc h
    rw [List.foldl_cons] at h
    rcases ih (group_step acc la) h with h1 | h2
    · rcases group_step_keys acc la p.1 h1 with ha | hb
      · exact Or.inl ha
      · exact Or.inr (by simp only [List.map_cons, List.mem_cons]; exact Or.inl hb)
    · exact Or.inr (by simp only [List.map_cons, List.mem_cons]; exact Or.inr h2)

theorem group_line_attrs_keys (las : List LineAttribution) (p : Str × List LineRange)
    (hp : p ∈ group_line_attrs las) : p.1 ∈ las.map (fun la => la.author_id) := by
  unfold group_line_attrs at hp
  rcases group_fold_keys p las [] hp with h1 | h2
  · simp at h1
  · exact h2

/-- The authors that may become attestation hashes when one checkpoint is
applied: non-human authors of its entries' line attributions. -/
theorem apply_checkpoint_hashes (shortHash : Str → Str → Str) (log : AuthorshipLog)
    (cp : Checkpoint) (ha : Option Str) (adds dels : Str → Nat) (h : Str)
    (hm : h ∈ referenced_hashes
      (apply_checkpoint shortHash log cp ha adds dels).1.attestations) :
    h ∈ referenced_hashes log.attestations ∨
      ((∃ e ∈ cp.entries, ∃ la ∈ e.line_attributions, la.author_id = h) ∧
        h ≠ CheckpointKind.Human.to_str) := by
  have hstep : ∀ (atts : List FileAttestation) (e : WorkingLogEntry),
      h ∈ referenced_hashes (apply_entry_step atts e) →
      h ∈ referenced_hashes atts ∨
        ((∃ la ∈ e.line_attributions, la.author_id = h) ∧
          h ≠ CheckpointKind.Human.to_str) := by
    intro atts e h1
    unfold apply_entry_step at h1
    rcases referenced_set_file_entries _ _ _ _ h1 with ha1 | ha2
    · exact Or.inl ha1
    · obtain ⟨ent, hent, heq⟩ := List.mem_map.1 ha2
      unfold entry_attestations at hent
      obtain ⟨p, hpm, hpe⟩ := List.mem_map.1 hent
      subst hpe
      have hpf := List.mem_filter.1 hpm
      have hkey := group_line_attrs_keys e.line_attributions p hpf.1
      obtain ⟨la, hla, hlae⟩ := List.mem_map.1 hkey
      have heq2 : p.1 = h := heq
      refine Or.inr ⟨⟨la, hla, ?_⟩, ?_⟩
      · rw [hlae]
        exact heq2
      · intro hcontra
        have hne : p.1 ≠ CheckpointKind.Human.to_str := by simpa using hpf.2
        exact hne (by rw [heq2, hcontra])
  have main : ∀ (es : List WorkingLogEntry) (atts : List FileAttestation),
      h ∈ referenced_hashes (es.foldl apply_entry_step atts) →
      h ∈ referenced_hashes atts ∨
        ((∃ e ∈ es, ∃ la ∈ e.line_attributions, la.author_id = h) ∧
          h ≠ CheckpointKind.Human.to_str) := by
    intro es
    induction es with
    | nil => intro atts hmm; exact Or.inl hmm
    | cons e rest ih =>
      intro atts hmm
      rw [List.foldl_cons] at hmm
      rcases ih (apply_entry_step atts e) hmm with h1 | h2
      · rcases hstep atts e h1 with ha1 | ha2
        · exact Or.inl ha1
        · obtain ⟨⟨la, hla, hlae⟩, hneq⟩ := ha2
          exact Or.inr ⟨⟨e, List.mem_cons_self _ _, la, hla, hlae⟩, hneq⟩
      · obtain ⟨⟨e2, he2, la, hla, hlae⟩, hneq⟩ := h2
        exact Or.inr ⟨⟨e2, List.mem_cons_of_mem _ he2, la, hla, hlae⟩, hneq⟩
  have hatt : (apply_checkpoint shortHash log cp ha adds dels).1.attestations
      = cp.entries.foldl apply_entry_step log.attestations := rfl
  rw [hatt] at hm
  exact main cp.entries log.attestations hm

theorem consolidate_go_hashes (h : Str) :
    ∀ (es : List AttestationEntry) (cur : Option (Str × List LineRange)),
      h ∈ (consolidate_go cur es).map (fun e => e.hash) →
      (∃ hr, cur = some hr ∧ hr.1 = h) ∨ h ∈ es.map (fun e => e.hash) := by
  intro es
  induction es with
  | nil =>
    intro cur hm
    cases cur with
    | none => simp [consolidate_go] at hm
    | some hr =>
      left
      refine ⟨hr, rfl, ?_⟩
      simp [consolidate_go] at hm
      exact hm.symm
  | cons e rest ih =>
    intro cur hm
    cases cur with
    | none =>
      rw [consolidate_go] at hm
      rcases ih (some (e.hash, e.line_ranges)) hm with ⟨hr, hcur, hh⟩ | hs
      · cases hcur
        exact Or.inr (by simp [← hh])
      · exact Or.inr (by simp only [List.map_cons, List.mem_cons]; exact Or.inr hs)
    | some hr =>
      rw [consolidate_go] at hm
      by_cases he : e.hash = hr.1
      · rw [if_pos he] at hm
        rcases ih (some (hr.1, hr.2 ++ e.line_ranges)) hm with ⟨hr2, hcur, hh⟩ | hs
        · cases hcur
          exact Or.inl ⟨hr, rfl, hh⟩
        · exact Or.inr (by simp only [List.map_cons, List.mem_cons]; exact Or.inr hs)
      · rw [if_neg he] at hm
        simp only [List.map_cons, List.mem_cons] at hm
        rcases hm with hm1 | hm2
        · exact Or.inl ⟨hr, rfl, hm1.symm⟩
        · rcases ih (some (e.hash, e.line_ranges)) hm2 with ⟨hr2, hcur, hh⟩ | hs
          · cases hcur
            exact Or.inr (by simp [← hh])
          · exact Or.inr (by simp only [List.map_cons, List.mem_cons]; exact Or.inr hs)

theorem referenced_map_entries (atts : List FileAttestation)
    (g : List AttestationEntry → List AttestationEntry)
    (hg : ∀ es e, e ∈ g es → e.hash ∈ es.map (fun x => x.hash)) (h : Str)
    (hm : h ∈ referenced_hashes (atts.map (fun fa => { fa with entries := g fa.entries }))) :
    h ∈ referenced_hashes atts := by
  obtain ⟨fa, hfa, e, he, heq⟩ := (mem_referenced_hashes _ _).1 hm
  obtain ⟨fa0, hfa0, hfeq⟩ := List.mem_map.1 hfa
  subst hfeq
  have := hg fa0.entries e he
  obtain ⟨e0, he0, he0eq⟩ := List.mem_map.1 this
  exact (mem_referenced_hashes _ _).2 ⟨fa0, hfa0, e0, he0, by rw [he0eq, heq]⟩

theorem finalize_hashes (log : AuthorshipLog) (adds dels : Str → Nat) (h : Str)
    (hm : h ∈ referenced_hashes (finalize log adds dels).attestations) :
    h ∈ referenced_hashes log.attestations := by
  have hdef : (finalize log adds dels).attestations
      = (((log.attestations.map
            (fun fa => { fa with entries := fa.entries.filter (fun e => !e.line_ranges.isEmpty) })).filter
          (fun fa => !fa.entries.isEmpty)).map
            (fun fa =>
              { fa with
                entries := List.insertionSort
                  (fun a b : AttestationEntry => strLeB a.hash b.hash = true) fa.entries })).map
        (fun fa => { fa with entries := consolidate_entries fa.entries }) := rfl
  rw [hdef] at hm
  have h4 := referenced_map_entries _ consolidate_entries
    (fun es e he => by
      unfold consolidate_entries at he
      rcases consolidate_go_hashes e.hash es none (List.mem_map.2 ⟨e, he, rfl⟩) with
        ⟨hr, hcur, -⟩ | hs
      · cases hcur
      · exact hs)
    h hm
  have h3 := referenced_map_entries _
    (List.insertionSort (fun a b : AttestationEntry => strLeB a.hash b.hash = true))
    (fun es e he =>
      List.mem_map.2 ⟨e, (List.perm_insertionSort _ es).mem_iff.1 he, rfl⟩)
    h h4
  obtain ⟨fa, hfa, e, he, heq⟩ := (mem_referenced_hashes _ _).1 h3
  have hfa2 := (List.mem_filter.1 hfa).1
  have h1 := referenced_map_entries _ (List.filter (fun e => !e.line_ranges.isEmpty))
    (fun es e he => List.mem_map.2 ⟨e, (List.mem_filter.1 he).1, rfl⟩)
    h ((mem_referenced_hashes _ _).2 ⟨fa, hfa2, e, he, heq⟩)
  exact h1

theorem finalize_keys (log : AuthorshipLog) (adds dels : Str → Nat) :
    (finalize log adds dels).metadata.prompts.map Prod.fst
      = log.metadata.prompts.map Prod.fst := by
  have hdef : (finalize log adds dels).metadata.prompts
      = log.metadata.prompts.map
          (fun p =>
            (p.1,
              { p.2 with
                total_additions := adds p.1
                total_deletions := dels p.1
                accepted_lines := session_accepted (finalize log adds dels).attestations p.1 })) :=
    rfl
  rw [hdef, List.map_map]
  rfl

theorem alInsert_keys_mono {β : Type} (m : List (Str × β)) (k : Str) (v : β) (k0 : Str)
    (h : k0 ∈ m.map Prod.fst) : k0 ∈ (alInsert m k v).map Prod.fst := by
  unfold alInsert
  by_cases hs : (m.lookup k).isSome
  · rw [if_pos hs]
    obtain ⟨p, hp, hpe⟩ := List.mem_map.1 h
    refine List.mem_map.2 ⟨if p.1 = k then (k, v) else p, List.mem_map.2 ⟨p, hp, rfl⟩, ?_⟩
    by_cases hpk : p.1 = k
    · rw [if_pos hpk]
      rw [← hpe, hpk]
    · rw [if_neg hpk]
      exact hpe
  · rw [if_neg hs, List.map_append]
    exact List.mem_append_left _ h

theorem alInsert_key_mem {β : Type} (m : List (Str × β)) (k : Str) (v : β) :
    k ∈ (alInsert m k v).map Prod.fst := by
  unfold alInsert
  by_cases hs : (m.lookup k).isSome
  · rw [if_pos hs]
    have hk := lookup_isSome_mem_keys m k hs
    obtain ⟨p, hp, hpe⟩ := List.mem_map.1 hk
    refine List.mem_map.2 ⟨if p.1 = k then (k, v) else p, List.mem_map.2 ⟨p, hp, rfl⟩, ?_⟩
    rw [if_pos hpe]
  · rw [if_neg hs, List.map_append]
    exact List.mem_append_right _ (List.mem_singleton.2 rfl)

theorem seed_prompts_keys (initial_prompts : List (Str × PromptRecord)) (k : Str)
    (h : k ∈ initial_prompts.map Prod.fst) :
    k ∈ (seed_prompts initial_prompts).map Prod.fst := by
  unfold seed_prompts
  have main : ∀ (ps : List (Str × PromptRecord)) (acc : List (Str × PromptRecord)),
      k ∈ acc.map Prod.fst ∨ k ∈ ps.map Prod.fst →
      k ∈ (ps.foldl (fun m p => alInsert m p.1 p.2) acc).map Prod.fst := by
    intro ps
    induction ps with
    | nil =>
      intro acc h2
      rcases h2 with h2 | h2
      · exact h2
      · simp at h2
    | cons p rest ih =>
      intro acc h2
      rw [List.foldl_cons]
      rcases h2 with h2 | h2
      · exact ih _ (Or.inl (alInsert_keys_mono acc p.1 p.2 k h2))
      · simp only [List.map_cons, List.mem_cons] at h2
        rcases h2 with h2 | h2
        · subst h2
          exact ih _ (Or.inl (alInsert_key_mem acc p.1 p.2))
        · exact ih _ (Or.inr h2)
  exact main initial_prompts [] (Or.inr h)

theorem fold_checkpoint_keys_mono (shortHash : Str → Str → Str) (ha : Option Str) :
    ∀ (cps : List Checkpoint) (st : AuthorshipLog × (Str → Nat) × (Str → Nat)) (k0 : Str),
      k0 ∈ st.1.metadata.prompts.map Prod.fst →
      k0 ∈ (cps.foldl (fold_checkpoint_step shortHash ha) st).1.metadata.prompts.map Prod.fst := by
  intro cps
  induction cps with
  | nil => intro st k0 h; exact h
  | cons cp rest ih =>
    intro st k0 h
    rw [List.foldl_cons]
    exact ih _ k0 (apply_checkpoint_keys_mono shortHash st.1 cp ha st.2.1 st.2.2 k0 h)

theorem fold_checkpoint_agent_keys (shortHash : Str → Str → Str) (ha : Option Str) :
    ∀ (cps : List Checkpoint) (st : AuthorshipLog × (Str → Nat) × (Str → Nat))
      (cp : Checkpoint) (ag : AgentId), cp ∈ cps → cp.agent_id = some ag →
      shortHash ag.id ag.tool ∈
        (cps.foldl (fold_checkpoint_step shortHash ha) st).1.metadata.prompts.map Prod.fst := by
  intro cps
  induction cps with
  | nil => intro st cp ag hmem; exact absurd hmem (List.not_mem_nil cp)
  | cons cp0 rest ih =>
    intro st cp ag hmem hag
    rw [List.foldl_cons]
    rcases List.mem_cons.1 hmem with hm1 | hm2
    · subst hm1
      exact fold_checkpoint_keys_mono shortHash ha rest _ _
        (apply_checkpoint_agent_key shortHash st.1 cp ha st.2.1 st.2.2 ag hag)
    · exact ih _ cp ag hm2 hag

theorem fold_checkpoint_hashes (shortHash : Str → Str → Str) (ha : Option Str) :
    ∀ (cps : List Checkpoint) (st : AuthorshipLog × (Str → Nat) × (Str → Nat)) (h : Str),
      h ∈ referenced_hashes (cps.foldl (fold_checkpoint_step shortHash ha) st).1.attestations →
      h ∈ referenced_hashes st.1.attestations ∨
        ((∃ cp ∈ cps, ∃ e ∈ cp.entries, ∃ la ∈ e.line_attributions, la.author_id = h) ∧
          h ≠ CheckpointKind.Human.to_str) := by
  intro cps
  induction cps with
  | nil => intro st h hm; exact Or.inl hm
  | cons cp rest ih =>
    intro st h hm
    rw [List.foldl_cons] at hm
    rcases ih _ h hm with h1 | h2
    · rcases apply_checkpoint_hashes shortHash st.1 cp ha st.2.1 st.2.2 h h1 with ha1 | ha2
      · exact Or.inl ha1
      · obtain ⟨⟨e, he, la, hla, hlae⟩, hneq⟩ := ha2
        exact Or.inr ⟨⟨cp, List.mem_cons_self _ _, e, he, la, hla, hlae⟩, hneq⟩
    · obtain ⟨⟨cp2, hcp2, e, he, la, hla, hlae⟩, hneq⟩ := h2
      exact Or.inr ⟨⟨cp2, List.mem_cons_of_mem _ hcp2, e, he, la, hla, hlae⟩, hneq⟩

theorem c2_finalized_coverage (shortHash : Str → Str → Str) (checkpoints : List Checkpoint)
    (base_commit_sha : Str) (human_author : Option Str)
    (initial_prompts : List (Str × PromptRecord))
    (hcover : ∀ cp ∈ checkpoints, ∀ e ∈ cp.entries, ∀ la ∈ e.line_attributions,
      la.author_id ≠ CheckpointKind.Human.to_str →
      la.author_id ∈ initial_prompts.map Prod.fst ∨
        ∃ cp2 ∈ checkpoints, ∃ ag, cp2.agent_id = some ag ∧
          shortHash ag.id ag.tool = la.author_id)
    (fa : FileAttestation) (e : AttestationEntry)
    (hfa : fa ∈ (finalize
        (working_log_fold shortHash checkpoints base_commit_sha human_author initial_prompts).1
        (working_log_fold shortHash checkpoints base_commit_sha human_author initial_prompts).2.1
        (working_log_fold shortHash checkpoints base_commit_sha human_author
          initial_prompts).2.2).attestations)
    (he : e ∈ fa.entries) :
    e.hash ∈ (finalize
        (working_log_fold shortHash checkpoints base_commit_sha human_author initial_prompts).1
        (working_log_fold shortHash checkpoints base_commit_sha human_author initial_prompts).2.1
        (working_log_fold shortHash checkpoints base_commit_sha human_author
          initial_prompts).2.2).metadata.prompts.map Prod.fst := by
  rw [finalize_keys]
  have href := (mem_referenced_hashes _ _).2 ⟨fa, hfa, e, he, rfl⟩
  have hrefSt := finalize_hashes _ _ _ _ href
  unfold working_log_fold at hrefSt ⊢
  have hfold := fold_checkpoint_hashes shortHash human_author checkpoints _ e.hash hrefSt
  rcases hfold with h1 | h2
  · exact absurd h1 (by simp [referenced_hashes])
  · obtain ⟨⟨cp, hcp, e2, he2, la, hla, hlae⟩, hneq⟩ := h2
    rcases hcover cp hcp e2 he2 la hla (by rw [hlae]; exact hneq) with hc1 | hc2
    · have hs : e.hash ∈ (seed_prompts initial_prompts).map Prod.fst := by
        rw [← hlae]
        exact seed_prompts_keys initial_prompts la.author_id hc1
      exact fold_checkpoint_keys_mono shortHash human_author checkpoints _ e.hash hs
    · obtain ⟨cp2, hcp2, ag, hag, hsh⟩ := hc2
      have hk := fold_checkpoint_agent_keys shortHash human_author checkpoints
        (⟨[], { AuthorshipMetadata.new with
            base_commit_sha := base_commit_sha
            prompts := seed_prompts initial_prompts }⟩,
          fun _ => 0, fun _ => 0) cp2 ag hcp2 hag
      rw [hsh, hlae] at hk
      exact hk

/-- C2 (amended): when every non-human author id appearing in the
checkpoints' line attributions is either already a key of the `INITIAL`
prompt seed or the session hash of some checkpoint's agent — which is how
the checkpoint writers produce working logs — every hash of every
attestation entry of the finalized log is a key of `metadata.prompts`.
Without that premise a working log can reference a session hash that no
prompt record covers. -/
theorem c2_hash_coverage (shortHash : Str → Str → Str) (checkpoints : List Checkpoint)
    (base_commit_sha : Str) (human_author : Option Str)
    (initial_prompts : List (Str × PromptRecord)) (ignore_prompts : Bool)
    (hcover : ∀ cp ∈ checkpoints, ∀ e ∈ cp.entries, ∀ la ∈ e.line_attributions,
      la.author_id ≠ CheckpointKind.Human.to_str →
      la.author_id ∈ initial_prompts.map Prod.fst ∨
        ∃ cp2 ∈ checkpoints, ∃ ag, cp2.agent_id = some ag ∧
          shortHash ag.id ag.tool = la.author_id) :
    ∀ fa ∈ (from_working_log_with_base_commit_and_human_author shortHash checkpoints
        base_commit_sha human_author initial_prompts ignore_prompts).attestations,
      ∀ e ∈ fa.entries,
        e.hash ∈ (from_working_log_with_base_commit_and_human_author shortHash checkpoints
          base_commit_sha human_author initial_prompts ignore_prompts).metadata.prompts.map
            Prod.fst := by
  cases ignore_prompts with
  | false =>
    intro fa hfa e he
    exact c2_finalized_coverage shortHash checkpoints base_commit_sha human_author
      initial_prompts hcover fa e hfa he
  | true =>
    intro fa hfa e he
    have hkeys : (from_working_log_with_base_commit_and_human_author shortHash checkpoints
        base_commit_sha human_author initial_prompts true).metadata.prompts.map Prod.fst
        = (finalize
            (working_log_fold shortHash checkpoints base_commit_sha human_author
              initial_prompts).1
            (working_log_fold shortHash checkpoints base_commit_sha human_author
              initial_prompts).2.1
            (working_log_fold shortHash checkpoints base_commit_sha human_author
              initial_prompts).2.2).metadata.prompts.map Prod.fst := by
      show ((finalize _ _ _).metadata.prompts.map
        (fun p => (p.1, { p.2 with messages := [] }))).map Prod.fst = _
      rw [List.map_map]
      rfl
    rw [hkeys]
    exact c2_finalized_coverage shortHash checkpoints base_commit_sha human_author
      initial_prompts hcover fa e hfa he

/-- C2 counterexample: a single human checkpoint whose entry carries a
line attribution by an unregistered author `"x"` produces a finalized log
whose only attestation hash `"x"` has no key in `metadata.prompts`. -/
theorem c2_counterexample :
    (from_working_log_with_base_commit_and_human_author (fun _ _ => [])
        [⟨CHECKPOINT_API_VERSION, .Human, str "h", none, none, {},
          [⟨str "f", [], [], [⟨1, 1, str "x", false⟩]⟩]⟩]
        (str "base") none [] false).attestations
      = [⟨str "f", [⟨str "x", [LineRange.Single 1]⟩]⟩] ∧
      (from_working_log_with_base_commit_and_human_author (fun _ _ => [])
        [⟨CHECKPOINT_API_VERSION, .Human, str "h", none, none, {},
          [⟨str "f", [], [], [⟨1, 1, str "x", false⟩]⟩]⟩]
        (str "base") none [] false).metadata.prompts = [] := by
  exact ⟨rfl, rfl⟩

/-- C2 witness: one AI checkpoint whose line attribution uses its own
agent's session hash satisfies the premise, and its attestation hash is a
prompt key. -/
theorem c2_hash_coverage_witness :
    ((from_working_log_with_base_commit_and_human_author (fun _ _ => str "abcd123")
        [⟨CHECKPOINT_API_VERSION, .AiAgent, str "ai", some ⟨str "cursor", str "s1", str "m"⟩,
          none, {},
          [⟨str "f", [], [], [⟨1, 2, str "abcd123", false⟩]⟩]⟩]
        (str "base") none [] false).attestations.all (fun fa =>
      fa.entries.all (fun e =>
        ((from_working_log_with_base_commit_and_human_author (fun _ _ => str "abcd123")
          [⟨CHECKPOINT_API_VERSION, .AiAgent, str "ai", some ⟨str "cursor", str "s1", str "m"⟩,
            none, {},
            [⟨str "f", [], [], [⟨1, 2, str "abcd123", false⟩]⟩]⟩]
          (str "base") none [] false).metadata.prompts.map Prod.fst).contains e.hash)))
      = true := by
  have h := c2_hash_coverage (fun _ _ => str "abcd123")
    [⟨CHECKPOINT_API_VERSION, .AiAgent, str "ai", some ⟨str "cursor", str "s1", str "m"⟩,
      none, {},
      [⟨str "f", [], [], [⟨1, 2, str "abcd123", false⟩]⟩]⟩]
    (str "base") none [] false
    (by
      intro cp hcp e he la hla hne
      right
      refine ⟨cp, hcp, ⟨str "cursor", str "s1", str "m"⟩, ?_, ?_⟩
      · rcases List.mem_singleton.1 hcp with rfl
        rfl
      · rcases List.mem_singleton.1 hcp with rfl
        rcases List.mem_singleton.1 he with rfl
        rcases List.mem_singleton.1 hla with rfl
        rfl)
  rw [List.all_eq_true]
  intro fa hfa
  rw [List.all_eq_true]
  intro e he
  exact List.elem_iff.2 (h fa hfa e he)

/-! ## C5 -/

theorem foldl_entries_flat (atts : List FileAttestation) :
    ∀ f0 : Str → Nat,
      atts.foldl (fun f fa => fa.entries.foldl acc_step f) f0
        = (atts.flatMap (fun fa => fa.entries)).foldl acc_step f0 := by
  induction atts with
  | nil => intro f0; rfl
  | cons fa rest ih =>
    intro f0
    rw [List.foldl_cons, List.flatMap_cons, List.foldl_append]
    exact ih _

theorem acc_fold_mod (es : List AttestationEntry) :
    ∀ (f0 g : Str → Nat), (∀ k, f0 k = g k % U32M) →
      ∀ k, (es.foldl acc_step f0) k = (g k + hash_line_sum es k) % U32M := by
  induction es with
  | nil =>
    intro f0 g hfg k
    rw [List.foldl_nil, hfg k]
    simp [hash_line_sum]
  | cons e rest ih =>
    intro f0 g hfg k
    rw [List.foldl_cons]
    have hstep : ∀ k2, acc_step f0 e k2
        = (fun k2 => if k2 = e.hash then g k2 + entry_line_count e else g k2) k2 % U32M := by
      intro k2
      unfold acc_step
      show _ = (if k2 = e.hash then g k2 + entry_line_count e else g k2) % U32M
      by_cases h2 : k2 = e.hash
      · rw [if_pos h2, if_pos h2, hfg k2, Nat.mod_add_mod]
        rfl
      · rw [if_neg h2, if_neg h2]
        exact hfg k2
    rw [ih (acc_step f0 e) _ hstep k]
    have hsum : hash_line_sum (e :: rest) k
        = (if e.hash = k then entry_line_count e else 0) + hash_line_sum rest k := by
      simp [hash_line_sum]
    rw [hsum]
    by_cases hk : k = e.hash
    · rw [if_pos hk, if_pos (hk.symm)]
      rw [Nat.add_assoc]
    · rw [if_neg hk, if_neg (fun hs => hk hs.symm), Nat.zero_add]

theorem hash_line_sum_le (es : List AttestationEntry) (k : Str) :
    hash_line_sum es k ≤ (es.map entry_line_count).sum := by
  induction es with
  | nil => simp [hash_line_sum]
  | cons e rest ih =>
    have h1 : hash_line_sum (e :: rest) k
        = (if e.hash = k then entry_line_count e else 0) + hash_line_sum rest k := by
      simp [hash_line_sum]
    rw [h1, List.map_cons, List.sum_cons]
    have h2 : (if e.hash = k then entry_line_count e else 0) ≤ entry_line_count e := by
      by_cases he : e.hash = k
      · rw [if_pos he]
      · rw [if_neg he]
        exact Nat.zero_le _
    omega

theorem sum_if_zero_of_not_mem (keys : List Str) (h : Str) (c : Nat) (hnm : h ∉ keys) :
    (keys.map (fun k => if h = k then c else 0)).sum = 0 := by
  induction keys with
  | nil => rfl
  | cons k0 ks ih =>
    rw [List.map_cons, List.sum_cons]
    rw [if_neg (fun he => hnm (by rw [he]; exact List.mem_cons_self _ _))]
    rw [Nat.zero_add]
    exact ih (fun hm => hnm (List.mem_cons_of_mem _ hm))

theorem sum_if_indicator (keys : List Str) (h : Str) (c : Nat) (hmem : h ∈ keys)
    (hnd : keys.Nodup) : (keys.map (fun k => if h = k then c else 0)).sum = c := by
  induction keys with
  | nil => exact absurd hmem (List.not_mem_nil h)
  | cons k0 ks ih =>
    rw [List.map_cons, List.sum_cons]
    by_cases he : h = k0
    · rw [if_pos he]
      subst he
      rw [sum_if_zero_of_not_mem ks h c (List.nodup_cons.1 hnd).1]
      omega
    · rw [if_neg he, Nat.zero_add]
      exact ih (List.mem_cons.1 hmem |>.resolve_left he) (List.nodup_cons.1 hnd).2

theorem sum_map_add (keys : List Str) (a b : Str → Nat) :
    (keys.map (fun k => a k + b k)).sum = (keys.map a).sum + (keys.map b).sum := by
  induction keys with
  | nil => rfl
  | cons k0 ks ih =>
    simp only [List.map_cons, List.sum_cons]
    rw [ih]
    omega

theorem keys_sum_hash_line (es : List AttestationEntry) (keys : List Str)
    (hnd : keys.Nodup) (hcov : ∀ e ∈ es, e.hash ∈ keys) :
    (keys.map (fun k => hash_line_sum es k)).sum = (es.map entry_line_count).sum := by
  induction es with
  | nil => simp [hash_line_sum]
  | cons e rest ih =>
    have h1 : (keys.map (fun k => hash_line_sum (e :: rest) k))
        = keys.map (fun k =>
            (if e.hash = k then entry_line_count e else 0) + hash_line_sum rest k) := by
      apply List.map_congr_left
      intro k _
      simp [hash_line_sum]
    rw [h1, sum_map_add, List.map_cons, List.sum_cons]
    rw [sum_if_indicator keys e.hash (entry_line_count e)
      (hcov e (List.mem_cons_self _ _)) hnd]
    rw [ih (fun e2 he2 => hcov e2 (List.mem_cons_of_mem _ he2))]

theorem flat_total (atts : List FileAttestation) :
    ((atts.flatMap (fun fa => fa.entries)).map entry_line_count).sum
      = total_attested_lines atts := by
  induction atts with
  | nil => rfl
  | cons fa rest ih =>
    rw [List.flatMap_cons, List.map_append, List.sum_append, ih]
    rfl

/-- C5 (amended): after finalization, the sum over all prompt records of
`accepted_lines` equals the total number of lines covered by the line
ranges of all attestation entries, provided every attestation hash is
covered by a prompt key (C2's premise), the prompt keys are distinct (as
they are in the source's `BTreeMap`), and the total fits in 32 bits.  A
log whose attestations reference a hash with no prompt record loses those
lines from the sum. -/
theorem c5_ownership_sum (log : AuthorshipLog) (adds dels : Str → Nat)
    (hnd : (log.metadata.prompts.map Prod.fst).Nodup)
    (hcov : ∀ fa ∈ log.attestations, ∀ e ∈ fa.entries,
      e.hash ∈ log.metadata.prompts.map Prod.fst)
    (hbound : total_attested_lines (finalize log adds dels).attestations < U32M) :
    ((finalize log adds dels).metadata.prompts.map (fun p => p.2.accepted_lines)).sum
      = total_attested_lines (finalize log adds dels).attestations := by
  have hdef : (finalize log adds dels).metadata.prompts
      = log.metadata.prompts.map
          (fun p =>
            (p.1,
              { p.2 with
                total_additions := adds p.1
                total_deletions := dels p.1
                accepted_lines :=
                  session_accepted (finalize log adds dels).attestations p.1 })) := rfl
  rw [hdef, List.map_map]
  show (log.metadata.prompts.map
      (fun p => session_accepted (finalize log adds dels).attestations p.1)).sum = _
  have hmaps : log.metadata.prompts.map
      (fun p => session_accepted (finalize log adds dels).attestations p.1)
      = (log.metadata.prompts.map Prod.fst).map
          (fun k => session_accepted (finalize log adds dels).attestations k) := by
    rw [List.map_map]
    rfl
  rw [hmaps]
  have hacc : ∀ k, session_accepted (finalize log adds dels).attestations k
      = hash_line_sum
          ((finalize log adds dels).attestations.flatMap (fun fa => fa.entries)) k := by
    intro k
    unfold session_accepted
    rw [foldl_entries_flat]
    rw [acc_fold_mod _ (fun _ => 0) (fun _ => 0) (fun _ => rfl) k]
    rw [Nat.zero_add]
    apply Nat.mod_eq_of_lt
    calc hash_line_sum _ k
        ≤ (((finalize log adds dels).attestations.flatMap (fun fa => fa.entries)).map
            entry_line_count).sum := hash_line_sum_le _ k
      _ = total_attested_lines (finalize log adds dels).attestations := flat_total _
      _ < U32M := hbound
  have hmap2 : ((log.metadata.prompts.map Prod.fst).map
      (fun k => session_accepted (finalize log adds dels).attestations k))
      = (log.metadata.prompts.map Prod.fst).map
          (fun k => hash_line_sum
            ((finalize log adds dels).attestations.flatMap (fun fa => fa.entries)) k) :=
    List.map_congr_left (fun k _ => hacc k)
  rw [hmap2]
  have hcov2 : ∀ e2 ∈ (finalize log adds dels).attestations.flatMap (fun fa => fa.entries),
      e2.hash ∈ log.metadata.prompts.map Prod.fst := by
    intro e2 he2
    obtain ⟨fa2, hfa2, he2m⟩ := List.mem_flatMap.1 he2
    have hr := finalize_hashes log adds dels e2.hash
      ((mem_referenced_hashes _ _).2 ⟨fa2, hfa2, e2, he2m, rfl⟩)
    obtain ⟨fa3, hfa3, e3, he3, heq3⟩ := (mem_referenced_hashes _ _).1 hr
    rw [← heq3]
    exact hcov fa3 hfa3 e3 he3
  rw [keys_sum_hash_line _ _ hnd hcov2, flat_total]

/-- C5 counterexample: the same unregistered-author working log as
C2's scenario finalizes to one attested line but a zero accepted-line
sum, so the claimed equality fails. -/
theorem c5_counterexample :
    ((from_working_log_with_base_commit_and_human_author (fun _ _ => [])
        [⟨CHECKPOINT_API_VERSION, .Human, str "h", none, none, {},
          [⟨str "g", [], [], [⟨1, 1, str "y", false⟩]⟩]⟩]
        (str "base2") none [] false).metadata.prompts.map
          (fun p => p.2.accepted_lines)).sum = 0 ∧
      total_attested_lines (from_working_log_with_base_commit_and_human_author (fun _ _ => [])
        [⟨CHECKPOINT_API_VERSION, .Human, str "h", none, none, {},
          [⟨str "g", [], [], [⟨1, 1, str "y", false⟩]⟩]⟩]
        (str "base2") none [] false).attestations = 1 ∧
      (0 : Nat) ≠ 1 := by
  exact ⟨rfl, rfl, by decide⟩

/-- C5 witness: a log with one covered entry of three lines sums to
three accepted lines after finalization. -/
theorem c5_ownership_sum_witness :
    ((finalize
        ⟨[⟨str "f", [⟨str "h1", [LineRange.Range 1 3]⟩]⟩],
          { schema_version := AUTHORSHIP_LOG_VERSION, base_commit_sha := str "b",
            prompts := [(str "h1", ⟨⟨str "t", str "i", str "m"⟩, none, [], 0, 0, 0, 0⟩)] }⟩
        (fun _ => 0) (fun _ => 0)).metadata.prompts.map (fun p => p.2.accepted_lines)).sum
      = total_attested_lines (finalize
        ⟨[⟨str "f", [⟨str "h1", [LineRange.Range 1 3]⟩]⟩],
          { schema_version := AUTHORSHIP_LOG_VERSION, base_commit_sha := str "b",
            prompts := [(str "h1", ⟨⟨str "t", str "i", str "m"⟩, none, [], 0, 0, 0, 0⟩)] }⟩
        (fun _ => 0) (fun _ => 0)).attestations :=
  c5_ownership_sum
    ⟨[⟨str "f", [⟨str "h1", [LineRange.Range 1 3]⟩]⟩],
      { schema_version := AUTHORSHIP_LOG_VERSION, base_commit_sha := str "b",
        prompts := [(str "h1", ⟨⟨str "t", str "i", str "m"⟩, none, [], 0, 0, 0, 0⟩)] }⟩
    (fun _ => 0) (fun _ => 0) (by decide) (by decide) (by decide)

/-! ## C6 helper lemmas -/

theorem expand_mem (r : LineRange) (l : Nat) :
    l ∈ r.expand ↔ r.containsLine l = true := by
  cases r with
  | Single n =>
    simp [LineRange.expand, LineRange.containsLine]
  | Range s e =>
    simp only [LineRange.expand, LineRange.containsLine, List.mem_range'_1,
      Bool.and_eq_true, decide_eq_true_eq]
    omega

theorem mem_dedupAdj : ∀ (xs : List Nat) (x : Nat), x ∈ dedupAdj xs ↔ x ∈ xs := by
  intro xs
  induction xs with
  | nil => intro x; rfl
  | cons a rest ih =>
    intro x
    cases rest with
    | nil => rfl
    | cons b rest2 =>
      rw [dedupAdj]
      by_cases hab : a = b
      · rw [if_pos hab, ih x]
        subst hab
        simp
      · rw [if_neg hab]
        simp only [List.mem_cons]
        rw [ih x]
        simp

theorem dedupAdj_lt : ∀ (xs : List Nat), xs.Sorted (· ≤ ·) →
    (dedupAdj xs).Chain' (· < ·) := by
  intro xs
  induction xs with
  | nil => intro h; simp [dedupAdj]
  | cons a rest ih =>
    cases rest with
    | nil => intro h; simp [dedupAdj]
    | cons b rest2 =>
      intro h
      rw [dedupAdj]
      by_cases hab : a = b
      · rw [if_pos hab]
        exact ih h.of_cons
      · rw [if_neg hab]
        rw [List.chain'_cons']
        refine ⟨?_, ih h.of_cons⟩
        intro z hz
        have hzmem : z ∈ dedupAdj (b :: rest2) := by
          cases hd : dedupAdj (b :: rest2) with
          | nil => rw [hd] at hz; cases hz
          | cons z0 zs =>
            rw [hd] at hz
            simp only [List.head?_cons, Option.mem_def, Option.some.injEq] at hz
            subst hz
            exact List.mem_cons_self _ _
        have hzin : z ∈ b :: rest2 := (mem_dedupAdj _ _).1 hzmem
        have hle : a ≤ z := List.rel_of_sorted_cons h z hzin
        have hne : a ≠ b := hab
        rcases List.mem_cons.1 hzin with hz1 | hz2
        · subst hz1
          omega
        · have hbz : b ≤ z := List.rel_of_sorted_cons h.of_cons z hz2
          have hb : a ≤ b := List.rel_of_sorted_cons h b (List.mem_cons_self _ _)
          omega

theorem compress_go_head : ∀ (ys : List Nat) (s e : Nat),
    ∃ r rest2, compress_go s e ys = r :: rest2 ∧ r.startLine = s := by
  intro ys
  induction ys with
  | nil =>
    intro s e
    refine ⟨mkRange s e, [], rfl, ?_⟩
    unfold mkRange
    by_cases hse : s = e
    · rw [if_pos hse]; rfl
    · rw [if_neg hse]; rfl
  | cons y ys2 ih =>
    intro s e
    rw [compress_go]
    by_cases hy : y = e + 1
    · rw [if_pos hy]
      exact ih s y
    · rw [if_neg hy]
      refine ⟨mkRange s e, compress_go y y ys2, rfl, ?_⟩
      unfold mkRange
      by_cases hse : s = e
      · rw [if_pos hse]; rfl
      · rw [if_neg hse]; rfl

theorem mkRange_contains (s e l : Nat) (hse : s ≤ e) :
    (mkRange s e).containsLine l = true ↔ s ≤ l ∧ l ≤ e := by
  unfold mkRange
  by_cases h : s = e
  · rw [if_pos h]
    subst h
    simp only [LineRange.containsLine, decide_eq_true_eq]
    omega
  · rw [if_neg h]
    simp only [LineRange.containsLine, Bool.and_eq_true, decide_eq_true_eq]

theorem compress_go_covered (l : Nat) : ∀ (ys : List Nat) (s e : Nat), s ≤ e →
    (e :: ys).Chain' (· < ·) →
    ((compress_go s e ys).any (fun r => r.containsLine l) = true ↔
      (s ≤ l ∧ l ≤ e) ∨ l ∈ ys) := by
  intro ys
  induction ys with
  | nil =>
    intro s e hse _
    rw [compress_go]
    simp only [List.any_cons, List.any_nil, Bool.or_false, List.not_mem_nil, or_false]
    exact mkRange_contains s e l hse
  | cons y ys2 ih =>
    intro s e hse hchain
    have hey : e < y := (List.chain'_cons.1 hchain).1
    have hchain2 : (y :: ys2).Chain' (· < ·) := (List.chain'_cons.1 hchain).2
    rw [compress_go]
    by_cases hy : y = e + 1
    · rw [if_pos hy]
      rw [ih s y (by omega) hchain2]
      subst hy
      constructor
      · rintro (⟨h1, h2⟩ | h3)
        · by_cases hle : l ≤ e
          · exact Or.inl ⟨h1, hle⟩
          · have hl : l = e + 1 := by omega
            exact Or.inr (by rw [hl]; exact List.mem_cons_self _ _)
        · exact Or.inr (List.mem_cons_of_mem _ h3)
      · rintro (⟨h1, h2⟩ | h3)
        · exact Or.inl ⟨h1, by omega⟩
        · rcases List.mem_cons.1 h3 with h4 | h5
          · subst h4
            exact Or.inl ⟨by omega, by omega⟩
          · exact Or.inr h5
    · rw [if_neg hy]
      rw [List.any_cons, Bool.or_eq_true]
      rw [ih y y (le_refl y) hchain2]
      rw [mkRange_contains s e l hse]
      constructor
      · rintro (h1 | ⟨h2, h3⟩ | h4)
        · exact Or.inl h1
        · have : l = y := by omega
          exact Or.inr (by rw [this]; exact List.mem_cons_self _ _)
        · exact Or.inr (List.mem_cons_of_mem _ h4)
      · rintro (h1 | h2)
        · exact Or.inl h1
        · rcases List.mem_cons.1 h2 with h3 | h4
          · subst h3
            exact Or.inr (Or.inl ⟨le_refl l, le_refl l⟩)
          · exact Or.inr (Or.inr h4)

theorem compress_covered (ls : List Nat) (hchain : ls.Chain' (· < ·)) (l : Nat) :
    ((LineRange.compress_lines ls).any (fun r => r.containsLine l) = true) ↔ l ∈ ls := by
  cases ls with
  | nil => simp [LineRange.compress_lines]
  | cons x xs =>
    rw [LineRange.compress_lines]
    rw [compress_go_covered l xs x x (le_refl x) hchain]
    constructor
    · rintro (⟨h1, h2⟩ | h3)
      · have : l = x := by omega
        rw [this]
        exact List.mem_cons_self _ _
      · exact List.mem_cons_of_mem _ h3
    · intro h
      rcases List.mem_cons.1 h with h1 | h2
      · subst h1
        exact Or.inl ⟨le_refl l, le_refl l⟩
      · exact Or.inr h2

theorem mkRange_bounds (s e : Nat) :
    (mkRange s e).startLine = s ∧ (mkRange s e).stopLine = e := by
  unfold mkRange
  by_cases h : s = e
  · rw [if_pos h]
    subst h
    exact ⟨rfl, rfl⟩
  · rw [if_neg h]
    exact ⟨rfl, rfl⟩

theorem compress_go_canonical : ∀ (ys : List Nat) (s e : Nat), s ≤ e →
    (e :: ys).Chain' (· < ·) → RangesCanonical (compress_go s e ys) := by
  intro ys
  induction ys with
  | nil =>
    intro s e hse _
    rw [compress_go]
    refine ⟨?_, by simp⟩
    intro r hr
    rcases List.mem_singleton.1 hr with rfl
    rw [(mkRange_bounds s e).1, (mkRange_bounds s e).2]
    exact hse
  | cons y ys2 ih =>
    intro s e hse hchain
    have hey : e < y := (List.chain'_cons.1 hchain).1
    have hchain2 : (y :: ys2).Chain' (· < ·) := (List.chain'_cons.1 hchain).2
    rw [compress_go]
    by_cases hy : y = e + 1
    · rw [if_pos hy]
      exact ih s y (by omega) hchain2
    · rw [if_neg hy]
      obtain ⟨hbounds, hch⟩ := ih y y (le_refl y) hchain2
      constructor
      · intro r hr
        rcases List.mem_cons.1 hr with h1 | h2
        · subst h1
          rw [(mkRange_bounds s e).1, (mkRange_bounds s e).2]
          exact hse
        · exact hbounds r h2
      · rw [List.chain'_cons']
        refine ⟨?_, hch⟩
        intro z hz
        obtain ⟨r0, rest0, hr0, hr0s⟩ := compress_go_head ys2 y y
        rw [hr0] at hz
        simp only [List.head?_cons, Option.mem_def, Option.some.injEq] at hz
        subst hz
        rw [(mkRange_bounds s e).2, hr0s]
        omega

theorem mem_entry_lines (e : AttestationEntry) (l : Nat) :
    l ∈ e.line_ranges.flatMap LineRange.expand ↔
      e.line_ranges.any (fun r => r.containsLine l) = true := by
  rw [List.mem_flatMap, List.any_eq_true]
  constructor
  · rintro ⟨r, hr, hm⟩
    exact ⟨r, hr, (expand_mem r l).1 hm⟩
  · rintro ⟨r, hr, hm⟩
    exact ⟨r, hr, (expand_mem r l).2 hm⟩

theorem filter_entry_hash (cs : List LineRange) (e : AttestationEntry) :
    (filter_entry_to_committed cs e).hash = e.hash := by
  unfold filter_entry_to_committed
  by_cases hB : ((e.line_ranges.flatMap LineRange.expand).filter
      (fun l => cs.any (fun r => r.containsLine l))).isEmpty
  · rw [if_neg (by simp [hB])]
  · rw [if_pos (by simp [hB])]

theorem filter_entry_ranges_of_empty (cs : List LineRange) (e : AttestationEntry)
    (hB : ((e.line_ranges.flatMap LineRange.expand).filter
      (fun l => cs.any (fun r => r.containsLine l))).isEmpty = true) :
    (filter_entry_to_committed cs e).line_ranges = [] := by
  unfold filter_entry_to_committed
  rw [if_neg (by simp [hB])]

theorem filter_entry_ranges_of_nonempty (cs : List LineRange) (e : AttestationEntry)
    (hB : ((e.line_ranges.flatMap LineRange.expand).filter
      (fun l => cs.any (fun r => r.containsLine l))).isEmpty = false) :
    (filter_entry_to_committed cs e).line_ranges
      = LineRange.compress_lines (dedupAdj (List.insertionSort (· ≤ ·)
          ((e.line_ranges.flatMap LineRange.expand).filter
            (fun l => cs.any (fun r => r.containsLine l))))) := by
  unfold filter_entry_to_committed
  rw [if_pos (by simp [hB])]

theorem filter_entry_covered (cs : List LineRange) (e : AttestationEntry) (l : Nat) :
    ((filter_entry_to_committed cs e).line_ranges.any
        (fun r => r.containsLine l) = true) ↔
      (e.line_ranges.any (fun r => r.containsLine l) = true ∧
        cs.any (fun r => r.containsLine l) = true) := by
  have hmem : ∀ x, x ∈ (e.line_ranges.flatMap LineRange.expand).filter
      (fun l2 => cs.any (fun r => r.containsLine l2)) ↔
      (e.line_ranges.any (fun r => r.containsLine x) = true ∧
        cs.any (fun r => r.containsLine x) = true) := by
    intro x
    rw [List.mem_filter, mem_entry_lines]
  cases hB : ((e.line_ranges.flatMap LineRange.expand).filter
      (fun l2 => cs.any (fun r => r.containsLine l2))).isEmpty with
  | true =>
    rw [filter_entry_ranges_of_empty cs e hB]
    simp only [List.any_nil]
    constructor
    · intro h
      cases h
    · rintro ⟨h1, h2⟩
      have hl : l ∈ (e.line_ranges.flatMap LineRange.expand).filter
          (fun l2 => cs.any (fun r => r.containsLine l2)) := (hmem l).2 ⟨h1, h2⟩
      rw [List.isEmpty_iff.1 hB] at hl
      cases hl
  | false =>
    rw [filter_entry_ranges_of_nonempty cs e hB]
    have hsorted := List.sorted_insertionSort (· ≤ ·)
      ((e.line_ranges.flatMap LineRange.expand).filter
        (fun l2 => cs.any (fun r => r.containsLine l2)))
    have hchain := dedupAdj_lt _ hsorted
    rw [compress_covered _ hchain l]
    rw [mem_dedupAdj]
    rw [(List.perm_insertionSort (· ≤ ·) _).mem_iff]
    exact hmem l

theorem compress_canonical (ls : List Nat) (hchain : ls.Chain' (· < ·)) :
    RangesCanonical (LineRange.compress_lines ls) := by
  cases ls with
  | nil =>
    refine ⟨?_, List.chain'_nil⟩
    intro r hr
    cases hr
  | cons x xs =>
    rw [LineRange.compress_lines]
    exact compress_go_canonical xs x x (le_refl x) hchain

theorem filter_entry_canonical (cs : List LineRange) (e : AttestationEntry)
    (hne : (filter_entry_to_committed cs e).line_ranges ≠ []) :
    RangesCanonical (filter_entry_to_committed cs e).line_ranges := by
  cases hB : ((e.line_ranges.flatMap LineRange.expand).filter
      (fun l2 => cs.any (fun r => r.containsLine l2))).isEmpty with
  | true => exact absurd (filter_entry_ranges_of_empty cs e hB) hne
  | false =>
    rw [filter_entry_ranges_of_nonempty cs e hB]
    exact compress_canonical _
      (dedupAdj_lt _ (List.sorted_insertionSort (· ≤ ·) _))

theorem filter_file_path (committed : Str → Option (List LineRange))
    (fa : FileAttestation) : (filter_file committed fa).file_path = fa.file_path := by
  unfold filter_file
  cases committed fa.file_path <;> rfl

theorem filter_file_entries_none (committed : Str → Option (List LineRange))
    (fa : FileAttestation) (hc : committed fa.file_path = none) :
    (filter_file committed fa).entries = [] := by
  unfold filter_file
  rw [hc]

theorem filter_file_entries_some (committed : Str → Option (List LineRange))
    (fa : FileAttestation) (cs : List LineRange) (hc : committed fa.file_path = some cs) :
    (filter_file committed fa).entries
      = (fa.entries.map (filter_entry_to_committed cs)).filter
          (fun e => !e.line_ranges.isEmpty) := by
  unfold filter_file
  rw [hc]

theorem any_true_ne_nil {α : Type} (l : List α) (p : α → Bool) (h : l.any p = true) :
    l ≠ [] := by
  intro hnil
  rw [hnil] at h
  cases h

/-- C6: filtering a log to committed lines leaves, for each file in the
committed map and each entry, exactly the lines lying both in the entry's
ranges and in the file's committed ranges, re-expressed canonically;
entries and files left empty are removed; and exactly the prompt records
whose hash is no longer referenced are removed, every still-referenced
record being kept with its value. -/
theorem c6_filter_to_committed (log : AuthorshipLog)
    (committed : Str → Option (List LineRange)) :
    (∀ p h l,
      (∃ fa ∈ (filter_to_committed_lines log committed).attestations,
          fa.file_path = p ∧ ∃ e ∈ fa.entries, e.hash = h ∧
            e.line_ranges.any (fun r => r.containsLine l) = true) ↔
        ((∃ fa ∈ log.attestations, fa.file_path = p ∧ ∃ e ∈ fa.entries, e.hash = h ∧
            e.line_ranges.any (fun r => r.containsLine l) = true) ∧
          ∃ cs, committed p = some cs ∧ cs.any (fun r => r.containsLine l) = true)) ∧
    (∀ fa ∈ (filter_to_committed_lines log committed).attestations,
      fa.entries ≠ [] ∧ ∀ e ∈ fa.entries,
        e.line_ranges ≠ [] ∧ RangesCanonical e.line_ranges) ∧
    (∀ k pr, (k, pr) ∈ (filter_to_committed_lines log committed).metadata.prompts ↔
      ((k, pr) ∈ log.metadata.prompts ∧
        ∃ fa ∈ (filter_to_committed_lines log committed).attestations,
          ∃ e ∈ fa.entries, e.hash = k)) := by
  have hatts : (filter_to_committed_lines log committed).attestations
      = (log.attestations.map (filter_file committed)).filter
          (fun fa => !fa.entries.isEmpty) := rfl
  have hprompts : (filter_to_committed_lines log committed).metadata.prompts
      = log.metadata.prompts.filter
          (fun p => (referenced_hashes
            ((log.attestations.map (filter_file committed)).filter
              (fun fa => !fa.entries.isEmpty))).contains p.1) := rfl
  refine ⟨?_, ?_, ?_⟩
  · intro p h l
    rw [hatts]
    constructor
    · rintro ⟨fa2, hfa2, hpath, e2, he2, hhash, hcov⟩
      have hfa2f := List.mem_filter.1 hfa2
      obtain ⟨fa, hfa, hfaeq⟩ := List.mem_map.1 hfa2f.1
      subst hfaeq
      cases hc : committed fa.file_path with
      | none =>
        rw [filter_file_entries_none committed fa hc] at he2
        cases he2
      | some cs =>
        rw [filter_file_entries_some committed fa cs hc] at he2
        obtain ⟨e, he, heeq⟩ := List.mem_map.1 (List.mem_filter.1 he2).1
        subst heeq
        have hcc := (filter_entry_covered cs e l).1 hcov
        have hp2 : fa.file_path = p := by
          rw [← hpath, filter_file_path]
        refine ⟨⟨fa, hfa, hp2, e, he, ?_, hcc.1⟩, cs, ?_, hcc.2⟩
        · rw [← hhash, filter_entry_hash]
        · rw [← hp2]
          exact hc
    · rintro ⟨⟨fa, hfa, hpath, e, he, hhash, hcov⟩, cs, hcs, hcscov⟩
      subst hpath
      have hcs2 : committed fa.file_path = some cs := hcs
      have hcov2 := (filter_entry_covered cs e l).2 ⟨hcov, hcscov⟩
      have hne2 : (!(filter_entry_to_committed cs e).line_ranges.isEmpty) = true := by
        cases hE : (filter_entry_to_committed cs e).line_ranges.isEmpty with
        | false => rfl
        | true =>
          exact absurd (List.isEmpty_iff.1 hE) (any_true_ne_nil _ _ hcov2)
      have hmeme : filter_entry_to_committed cs e ∈ (filter_file committed fa).entries := by
        rw [filter_file_entries_some committed fa cs hcs2]
        exact List.mem_filter.2 ⟨List.mem_map.2 ⟨e, he, rfl⟩, hne2⟩
      have hmemfa : filter_file committed fa ∈
          (log.attestations.map (filter_file committed)).filter
            (fun fa => !fa.entries.isEmpty) := by
        refine List.mem_filter.2 ⟨List.mem_map.2 ⟨fa, hfa, rfl⟩, ?_⟩
        cases hE : (filter_file committed fa).entries.isEmpty with
        | false => rfl
        | true =>
          rw [List.isEmpty_iff.1 hE] at hmeme
          cases hmeme
      refine ⟨filter_file committed fa, hmemfa, filter_file_path committed fa,
        filter_entry_to_committed cs e, hmeme, ?_, hcov2⟩
      rw [filter_entry_hash]
      exact hhash
  · intro fa2 hfa2
    rw [hatts] at hfa2
    have hf := List.mem_filter.1 hfa2
    obtain ⟨fa, hfa, hfaeq⟩ := List.mem_map.1 hf.1
    constructor
    · intro hnil
      have := hf.2
      rw [hnil] at this
      cases this
    · intro e2 he2
      subst hfaeq
      cases hc : committed fa.file_path with
      | none =>
        rw [filter_file_entries_none committed fa hc] at he2
        cases he2
      | some cs =>
        rw [filter_file_entries_some committed fa cs hc] at he2
        have he2f := List.mem_filter.1 he2
        obtain ⟨e, he, heeq⟩ := List.mem_map.1 he2f.1
        subst heeq
        have hne : (filter_entry_to_committed cs e).line_ranges ≠ [] := by
          intro hnil
          have := he2f.2
          rw [hnil] at this
          cases this
        exact ⟨hne, filter_entry_canonical cs e hne⟩
  · intro k pr
    rw [hprompts, ← hatts, List.mem_filter]
    constructor
    · rintro ⟨hm, hc⟩
      refine ⟨hm, ?_⟩
      have hk : k ∈ referenced_hashes
          (filter_to_committed_lines log committed).attestations :=
        List.elem_iff.1 hc
      obtain ⟨fa, hfa, e, he, heq⟩ := (mem_referenced_hashes _ _).1 hk
      exact ⟨fa, hfa, e, he, heq⟩
    · rintro ⟨hm, fa, hfa, e, he, heq⟩
      refine ⟨hm, ?_⟩
      show (referenced_hashes (filter_to_committed_lines log committed).attestations).elem k
        = true
      rw [List.elem_iff]
      exact (mem_referenced_hashes _ _).2 ⟨fa, hfa, e, he, heq⟩

/-! ## C1 -/

theorem digitChar_spec : ∀ d : Fin 10,
    isDigitCh (digitChar d.val) = true ∧ (digitChar d.val).toNat - 48 = d.val := by
  decide

theorem natDigitsRev_digits (n : Nat) : ∀ c ∈ natDigitsRev n, isDigitCh c = true := by
  induction n using Nat.strong_induction_on with
  | _ n ih =>
    intro c hc
    rw [natDigitsRev] at hc
    by_cases h10 : n < 10
    · rw [dif_pos h10] at hc
      rw [List.mem_singleton.1 hc]
      exact (digitChar_spec ⟨n, h10⟩).1
    · rw [dif_neg h10] at hc
      rcases List.mem_cons.1 hc with hc | hc
      · rw [hc]
        exact (digitChar_spec ⟨n % 10, Nat.mod_lt _ (by norm_num)⟩).1
      · exact ih (n / 10) (Nat.div_lt_self (by omega) (by norm_num)) c hc

theorem valOfDigits_concat (l : Str) (c : Char) :
    valOfDigits (l ++ [c]) = valOfDigits l * 10 + (c.toNat - 48) := by
  unfold valOfDigits
  rw [List.foldl_append]
  rfl

theorem valOfDigits_natToStr (n : Nat) : valOfDigits (natToStr n) = n := by
  induction n using Nat.strong_induction_on with
  | _ n ih =>
    unfold natToStr
    rw [natDigitsRev]
    by_cases h10 : n < 10
    · rw [dif_pos h10]
      have h : (digitChar n).toNat - 48 = n := (digitChar_spec ⟨n, h10⟩).2
      show valOfDigits [digitChar n] = n
      unfold valOfDigits
      simp only [List.foldl_cons, List.foldl_nil]
      omega
    · rw [dif_neg h10]
      rw [List.reverse_cons, valOfDigits_concat]
      have h1 := ih (n / 10) (Nat.div_lt_self (by omega) (by norm_num))
      unfold natToStr at h1
      have h2 : (digitChar (n % 10)).toNat - 48 = n % 10 :=
        (digitChar_spec ⟨n % 10, Nat.mod_lt _ (by norm_num)⟩).2
      omega

theorem natDigitsRev_ne_nil (n : Nat) : natDigitsRev n ≠ [] := by
  rw [natDigitsRev]
  by_cases h10 : n < 10
  · rw [dif_pos h10]; simp
  · rw [dif_neg h10]; simp

theorem natToStr_ne_nil (n : Nat) : natToStr n ≠ [] := by
  unfold natToStr
  rw [ne_eq, List.reverse_eq_nil_iff]
  exact natDigitsRev_ne_nil n

theorem natToStr_digits (n : Nat) : ∀ c ∈ natToStr n, isDigitCh c = true :=
  fun c hc => natDigitsRev_digits n c (List.mem_reverse.1 hc)

theorem digit_ne_plus {c : Char} (hd : isDigitCh c = true) : c ≠ '+' := by
  intro h; rw [h] at hd; exact absurd hd (by decide)

theorem digit_ne_dash {c : Char} (hd : isDigitCh c = true) : c ≠ '-' := by
  intro h; rw [h] at hd; exact absurd hd (by decide)

theorem digit_ne_comma {c : Char} (hd : isDigitCh c = true) : c ≠ ',' := by
  intro h; rw [h] at hd; exact absurd hd (by decide)

theorem digitChar_not_ws : ∀ d : Fin 10, rustIsWs (digitChar d.val) = false := by
  decide

theorem natDigitsRev_not_ws (n : Nat) : ∀ c ∈ natDigitsRev n, rustIsWs c = false := by
  induction n using Nat.strong_induction_on with
  | _ n ih =>
    intro c hc
    rw [natDigitsRev] at hc
    by_cases h10 : n < 10
    · rw [dif_pos h10] at hc
      rw [List.mem_singleton.1 hc]
      exact digitChar_not_ws ⟨n, h10⟩
    · rw [dif_neg h10] at hc
      rcases List.mem_cons.1 hc with hc | hc
      · rw [hc]
        exact digitChar_not_ws ⟨n % 10, Nat.mod_lt _ (by norm_num)⟩
      · exact ih (n / 10) (Nat.div_lt_self (by omega) (by norm_num)) c hc

theorem natToStr_not_ws (n : Nat) : ∀ c ∈ natToStr n, rustIsWs c = false :=
  fun c hc => natDigitsRev_not_ws n c (List.mem_reverse.1 hc)

theorem format_range_not_ws (r : LineRange) (c : Char) (hc : c ∈ format_range r) :
    rustIsWs c = false := by
  cases r with
  | Single n => exact natToStr_not_ws n c hc
  | Range s e =>
    simp only [format_range] at hc
    rcases List.mem_append.1 hc with h | h
    · exact natToStr_not_ws s c h
    · rcases List.mem_cons.1 h with h | h
      · rw [h]; decide
      · exact natToStr_not_ws e c h

theorem stripPlus_cons (c : Char) (t : Str) (hc : c ≠ '+') : stripPlus (c :: t) = c :: t := by
  unfold stripPlus
  split
  · rename_i rest heq
    injection heq with h1 _
    exact absurd h1 hc
  · rfl

theorem parseU32_natToStr (n : Nat) (h : n < U32M) : parseU32 (natToStr n) = some n := by
  obtain ⟨c0, t, hct⟩ : ∃ c0 t, natToStr n = c0 :: t := by
    cases hs : natToStr n with
    | nil => exact absurd hs (natToStr_ne_nil n)
    | cons a l => exact ⟨a, l, rfl⟩
  have hd0 : isDigitCh c0 = true :=
    natToStr_digits n c0 (by rw [hct]; exact List.mem_cons_self _ _)
  have hall : (c0 :: t).all isDigitCh = true :=
    List.all_eq_true.2 (by rw [← hct]; exact natToStr_digits n)
  have hval : valOfDigits (c0 :: t) = n := by rw [← hct]; exact valOfDigits_natToStr n
  rw [hct]
  simp [parseU32, stripPlus_cons c0 t (digit_ne_plus hd0), hall, hval, h]

theorem splitOnChar_of_not_mem (c : Char) : ∀ (p : Str), c ∉ p → splitOnChar c p = [p]
  | [], _ => rfl
  | x :: xs, h => by
    have hx : ¬(x = c) := by
      intro he
      exact h (by rw [he]; exact List.mem_cons_self _ _)
    simp only [splitOnChar, if_neg hx,
      splitOnChar_of_not_mem c xs (fun hm => h (List.mem_cons_of_mem _ hm))]

theorem splitOnChar_append (c : Char) : ∀ (p s : Str), c ∉ p →
    splitOnChar c (p ++ c :: s) = p :: splitOnChar c s
  | [], s, _ => by
    simp [splitOnChar]
  | x :: xs, s, h => by
    have hx : ¬(x = c) := by
      intro he
      exact h (by rw [he]; exact List.mem_cons_self _ _)
    simp only [List.cons_append, splitOnChar, List.append_eq, if_neg hx,
      splitOnChar_append c xs s (fun hm => h (List.mem_cons_of_mem _ hm))]

theorem splitOnChar_joinSep (c : Char) : ∀ (parts : List Str), parts ≠ [] →
    (∀ p ∈ parts, c ∉ p) → splitOnChar c (joinSep [c] parts) = parts
  | [], h, _ => absurd rfl h
  | [p], _, hp => by
    simp only [joinSep]
    exact splitOnChar_of_not_mem c p (hp p (List.mem_cons_self _ _))
  | p :: q :: rest, _, hp => by
    have hj : joinSep [c] (p :: q :: rest) = p ++ c :: joinSep [c] (q :: rest) := by
      simp only [joinSep]
      rw [List.append_assoc]
      rfl
    rw [hj, splitOnChar_append c p _ (hp p (List.mem_cons_self _ _)),
      splitOnChar_joinSep c (q :: rest) (by simp)
        (fun r hr => hp r (List.mem_cons_of_mem _ hr))]

theorem mem_joinSep (c2 : Char) (sep : Str) : ∀ (parts : List Str),
    c2 ∈ joinSep sep parts → (∃ p ∈ parts, c2 ∈ p) ∨ c2 ∈ sep
  | [], h => by simp only [joinSep] at h; cases h
  | [p], h => by
    simp only [joinSep] at h
    exact .inl ⟨p, List.mem_cons_self _ _, h⟩
  | p :: q :: rest, h => by
    simp only [joinSep] at h
    rcases List.mem_append.1 h with h1 | h2
    · rcases List.mem_append.1 h1 with ha | hb
      · exact .inl ⟨p, List.mem_cons_self _ _, ha⟩
      · exact .inr hb
    · rcases mem_joinSep c2 sep (q :: rest) h2 with ⟨r, hr, hcr⟩ | hs
      · exact .inl ⟨r, List.mem_cons_of_mem _ hr, hcr⟩
      · exact .inr hs

theorem joinSep_ne_nil (sep : Str) (p : Str) (rest : List Str) (hp : p ≠ []) :
    joinSep sep (p :: rest) ≠ [] := by
  cases rest with
  | nil => simpa [joinSep] using hp
  | cons q r =>
    simp only [joinSep]
    simp [List.append_eq_nil, hp]

theorem format_range_ne_nil (r : LineRange) : format_range r ≠ [] := by
  cases r with
  | Single n => exact natToStr_ne_nil n
  | Range s e => simp [format_range, List.append_eq_nil]

theorem format_range_chars (r : LineRange) (c : Char) (hc : c ∈ format_range r) :
    isDigitCh c = true ∨ c = '-' := by
  cases r with
  | Single n => exact .inl (natToStr_digits n c hc)
  | Range s e =>
    simp only [format_range] at hc
    rcases List.mem_append.1 hc with h | h
    · exact .inl (natToStr_digits s c h)
    · rcases List.mem_cons.1 h with h | h
      · exact .inr h
      · exact .inl (natToStr_digits e c h)

theorem comma_not_mem_format_range (r : LineRange) : ',' ∉ format_range r := by
  intro h
  rcases format_range_chars r ',' h with h1 | h1
  · exact absurd h1 (by decide)
  · exact absurd h1 (by decide)

theorem findIdx_none_of_all {p : Char → Bool} : ∀ (l : Str) (i : Nat),
    (∀ c ∈ l, p c = false) → List.findIdx? p l i = none
  | [], _, _ => List.findIdx?_nil
  | x :: xs, i, h => by
    rw [List.findIdx?_cons, h x (List.mem_cons_self _ _),
      if_neg (by decide : ¬(false = true))]
    exact findIdx_none_of_all xs (i + 1) (fun c hc => h c (List.mem_cons_of_mem _ hc))

theorem findIdx_append_hit {p : Char → Bool} (c0 : Char) (l2 : Str) (hc0 : p c0 = true) :
    ∀ (l1 : Str) (i : Nat), (∀ c ∈ l1, p c = false) →
    List.findIdx? p (l1 ++ c0 :: l2) i = some (i + l1.length)
  | [], i, _ => by
    rw [List.nil_append, List.findIdx?_cons, hc0, if_pos rfl]
    simp
  | x :: xs, i, h => by
    rw [List.cons_append, List.findIdx?_cons, h x (List.mem_cons_self _ _),
      if_neg (by decide : ¬(false = true)),
      findIdx_append_hit c0 l2 hc0 xs (i + 1) (fun c hc => h c (List.mem_cons_of_mem _ hc))]
    congr 1
    simp only [List.length_cons]
    omega

theorem parse_go_map_format : ∀ (rs : List LineRange),
    (∀ r ∈ rs, r.startLine < U32M ∧ r.stopLine < U32M) →
    parse_line_ranges_go (rs.map format_range) = .ok rs
  | [], _ => rfl
  | r :: rs, h => by
    have hb := h r (List.mem_cons_self _ _)
    have ih := parse_go_map_format rs (fun x hx => h x (List.mem_cons_of_mem _ hx))
    have hnem : ¬((format_range r).isEmpty = true) := by
      simp [List.isEmpty_iff, format_range_ne_nil r]
    rw [List.map_cons]
    cases r with
    | Single n =>
      have hfind : List.findIdx? (fun c => decide (c = '-')) (format_range (.Single n)) 0
          = none :=
        findIdx_none_of_all _ 0 (fun c hc =>
          decide_eq_false (digit_ne_dash (natToStr_digits n c hc)))
      have hp : parseU32 (format_range (.Single n)) = some n :=
        parseU32_natToStr n hb.1
      simp only [parse_line_ranges_go, if_neg hnem, hfind, hp, ih]
      rfl
    | Range s e =>
      have hds : ∀ c ∈ natToStr s, (fun c => decide (c = '-')) c = false :=
        fun c hc => decide_eq_false (digit_ne_dash (natToStr_digits s c hc))
      have hfr : format_range (.Range s e) = natToStr s ++ '-' :: natToStr e := rfl
      have hfind : List.findIdx? (fun c => decide (c = '-')) (format_range (.Range s e)) 0
          = some (natToStr s).length := by
        rw [hfr, findIdx_append_hit '-' (natToStr e) (by decide) (natToStr s) 0 hds,
          Nat.zero_add]
      have htake : (format_range (.Range s e)).take (natToStr s).length = natToStr s := by
        rw [hfr]; exact List.take_left _ _
      have hdrop : (format_range (.Range s e)).drop ((natToStr s).length + 1)
          = natToStr e := by
        rw [hfr, ← List.drop_drop, List.drop_left]
        rfl
      have hps : parseU32 (natToStr s) = some s := parseU32_natToStr s hb.1
      have hpe : parseU32 (natToStr e) = some e := parseU32_natToStr e hb.2
      simp only [parse_line_ranges_go, if_neg hnem, hfind, htake, hdrop, hps, hpe, ih]
      rfl

theorem parse_format_line_ranges (rs : List LineRange) (hne : rs ≠ [])
    (hs : rs.Sorted (fun a b => a.startLine ≤ b.startLine))
    (hb : ∀ r ∈ rs, r.startLine < U32M ∧ r.stopLine < U32M) :
    parse_line_ranges (format_line_ranges rs) = .ok rs := by
  unfold parse_line_ranges format_line_ranges
  rw [List.Sorted.insertionSort_eq hs]
  rw [splitOnChar_joinSep ',' (rs.map format_range)
    (by simpa using hne)
    (by
      intro p hp
      obtain ⟨r, _, rfl⟩ := List.mem_map.1 hp
      exact comma_not_mem_format_range r)]
  exact parse_go_map_format rs hb

theorem format_line_ranges_chars (rs : List LineRange) (c : Char)
    (hc : c ∈ format_line_ranges rs) : isDigitCh c = true ∨ c = '-' ∨ c = ',' := by
  unfold format_line_ranges at hc
  rcases mem_joinSep c [','] _ hc with ⟨p, hp, hcp⟩ | hs
  · obtain ⟨r, _, rfl⟩ := List.mem_map.1 hp
    rcases format_range_chars r c hcp with h | h
    · exact .inl h
    · exact .inr (.inl h)
  · rcases List.mem_cons.1 hs with h | h
    · exact .inr (.inr h)
    · cases h

theorem flr_not_ws {rs : List LineRange} {c : Char} (hc : c ∈ format_line_ranges rs) :
    rustIsWs c = false := by
  unfold format_line_ranges at hc
  rcases mem_joinSep c [','] _ hc with ⟨p, hp, hcp⟩ | hs
  · obtain ⟨r, _, rfl⟩ := List.mem_map.1 hp
    exact format_range_not_ws r c hcp
  · rcases List.mem_cons.1 hs with h | h
    · rw [h]; decide
    · cases h

theorem format_line_ranges_ne_nil (rs : List LineRange) (hne : rs ≠ []) :
    format_line_ranges rs ≠ [] := by
  unfold format_line_ranges
  cases hm : (List.insertionSort (fun a b : LineRange => a.startLine ≤ b.startLine) rs).map
      format_range with
  | nil =>
    exfalso
    have hlen := congrArg List.length hm
    simp only [List.length_map, List.length_insertionSort, List.length_nil] at hlen
    exact hne (List.length_eq_zero.1 hlen)
  | cons p pr =>
    have hp : p ≠ [] := by
      have hmem : p ∈ (List.insertionSort
          (fun a b : LineRange => a.startLine ≤ b.startLine) rs).map format_range := by
        rw [hm]; exact List.mem_cons_self _ _
      obtain ⟨r, _, rfl⟩ := List.mem_map.1 hmem
      exact format_range_ne_nil r
    exact joinSep_ne_nil _ p pr hp

theorem trimEnd_concat (l : Str) (c : Char) (hc : rustIsWs c = false) :
    trimEnd (l ++ [c]) = l ++ [c] := by
  unfold trimEnd
  rw [List.reverse_append]
  simp only [List.reverse_cons, List.reverse_nil, List.nil_append, List.singleton_append]
  rw [List.dropWhile_cons, hc]
  simp

theorem trimEnd_entry (e : AttestationEntry) (hne : e.line_ranges ≠ []) :
    trimEnd (serialize_entry_line e) = serialize_entry_line e := by
  have hR := format_line_ranges_ne_nil e.line_ranges hne
  rcases List.eq_nil_or_concat (format_line_ranges e.line_ranges) with h | ⟨L, b, h⟩
  · exact absurd h hR
  · rw [List.concat_eq_append] at h
    have hb : rustIsWs b = false :=
      @flr_not_ws e.line_ranges b
        (by rw [h]; exact List.mem_append.2 (.inr (List.mem_cons_self _ _)))
    unfold serialize_entry_line
    rw [h]
    rw [show (' ' :: ' ' :: (e.hash ++ (' ' :: (L ++ [b]))) : Str)
        = (' ' :: ' ' :: (e.hash ++ (' ' :: L))) ++ [b] from by simp]
    exact trimEnd_concat _ b hb

theorem parse_go_entry_step (fa : FileAttestation) (eh : Str) (elr : List LineRange)
    (he : GoodEntry ⟨eh, elr⟩) (rest : List Str) :
    parse_attestation_go (some fa) (serialize_entry_line ⟨eh, elr⟩ :: rest)
      = parse_attestation_go (some { fa with entries := fa.entries ++ [⟨eh, elr⟩] })
          rest := by
  have he2 : (∀ c ∈ eh, rustIsWs c = false) ∧ elr ≠ [] ∧
      elr.Sorted (fun a b => a.startLine ≤ b.startLine) ∧
      ∀ r ∈ elr, r.startLine < U32M ∧ r.stopLine < U32M := he
  obtain ⟨hhash, hne, hsrt, hbnd⟩ := he2
  have htrim : trimEnd (' ' :: ' ' :: (eh ++ ' ' :: format_line_ranges elr))
      = ' ' :: ' ' :: (eh ++ ' ' :: format_line_ranges elr) :=
    trimEnd_entry ⟨eh, elr⟩ hne
  have hline : serialize_entry_line ⟨eh, elr⟩
      = ' ' :: ' ' :: (eh ++ ' ' :: format_line_ranges elr) := rfl
  have hfind : List.findIdx? (fun c => decide (c = ' '))
      (eh ++ ' ' :: format_line_ranges elr) 0 = some eh.length := by
    rw [findIdx_append_hit ' ' _ (by decide) eh 0
      (fun c hc => decide_eq_false (fun hsp => by
        have hw := hhash c hc
        rw [hsp] at hw
        exact absurd hw (by decide))), Nat.zero_add]
  have htake2 : ((' ' :: ' ' :: (eh ++ ' ' :: format_line_ranges elr)) : Str).take 2
      = str "  " := rfl
  have hdropR : (eh ++ ' ' :: format_line_ranges elr).drop (eh.length + 1)
      = format_line_ranges elr := by
    rw [← List.drop_drop, List.drop_left]
    rfl
  have htakeH : (eh ++ ' ' :: format_line_ranges elr).take eh.length = eh :=
    List.take_left _ _
  have hparse : parse_line_ranges (format_line_ranges elr) = .ok elr :=
    parse_format_line_ranges elr hne hsrt hbnd
  simp only [parse_attestation_go, htrim, hline, List.isEmpty_cons, Bool.false_eq_true,
    if_false, List.drop_succ_cons, List.drop_zero, htake2, eq_self_iff_true, if_true,
    hfind, hdropR, hparse, htakeH]

theorem parse_go_path_step (cur : Option FileAttestation) (p : Str) (hp : GoodPath p)
    (rest : List Str) :
    parse_attestation_go cur
        ((if needs_quoting p then '"' :: (p ++ ['"']) else p) :: rest)
      = (parse_attestation_go (some ⟨p, []⟩) rest).map (flush_current cur ++ ·) := by
  have hp2 : p ≠ [] ∧ '\n' ∉ p ∧ '\r' ∉ p ∧ p ≠ DIVIDER ∧
      (needs_quoting p = true ∨
        (¬(p.head? = some '"' ∧ p.getLast? = some '"') ∧ trimEnd p = p)) := hp
  obtain ⟨hne, _, _, _, hq⟩ := hp2
  by_cases hnq : needs_quoting p = true
  · rw [if_pos hnq]
    have hsh : ('"' :: (p ++ ['"']) : Str) = ('"' :: p) ++ ['"'] := by simp
    have htrimq : trimEnd ('"' :: (p ++ ['"'])) = '"' :: (p ++ ['"']) := by
      rw [hsh]
      exact trimEnd_concat _ _ (by decide)
    have hcond : (('"' :: (p ++ ['"'])) : Str).head? = some '"' ∧
        (('"' :: (p ++ ['"'])) : Str).getLast? = some '"' :=
      ⟨rfl, by rw [hsh]; exact List.getLast?_concat _⟩
    have hppl : parse_path_line ('"' :: (p ++ ['"'])) = p := by
      unfold parse_path_line
      rw [if_pos hcond]
      show ((p ++ ['"']).dropLast) = p
      exact List.dropLast_concat
    simp only [parse_attestation_go, htrimq]
    rw [if_neg (by simp)]
    rw [if_neg (fun hk => by
      rw [show (str "  ") = [' ', ' '] from rfl, List.take_succ_cons] at hk
      injection hk with h1 _
      exact absurd h1 (by decide))]
    rw [hppl]
  · rw [if_neg hnq]
    rcases hq with hq1 | ⟨hq2, htrimp⟩
    · exact absurd hq1 hnq
    have hnq2 : needs_quoting p = false := by rwa [Bool.not_eq_true] at hnq
    have hnc : (p.contains ' ' || p.contains '\t' || p.contains '\n') = false := hnq2
    rw [Bool.or_eq_false_iff, Bool.or_eq_false_iff] at hnc
    have hsp : ' ' ∉ p := by
      intro hm
      have hm2 : p.contains ' ' = true := List.elem_iff.2 hm
      rw [hm2] at hnc
      exact absurd hnc.1.1 (by decide)
    have hppl : parse_path_line p = p := by
      unfold parse_path_line
      rw [if_neg hq2]
    simp only [parse_attestation_go, htrimp]
    rw [if_neg (by simp [List.isEmpty_iff, hne])]
    rw [if_neg (fun hk => by
      have hm : ' ' ∈ p :=
        @List.mem_of_mem_take Char 2 ' ' p
          (by rw [hk]; exact List.mem_cons_self _ _)
      exact absurd hm hsp)]
    rw [hppl]

theorem parse_go_entries (rest : List Str) :
    ∀ (entries : List AttestationEntry) (fa : FileAttestation),
    (∀ e ∈ entries, GoodEntry e) →
    parse_attestation_go (some fa) (entries.map serialize_entry_line ++ rest)
      = parse_attestation_go (some { fa with entries := fa.entries ++ entries }) rest
  | [], fa, _ => by
    rw [List.map_nil, List.nil_append, List.append_nil]
  | e :: es, fa, h => by
    obtain ⟨eh, elr⟩ := e
    rw [List.map_cons, List.cons_append,
      parse_go_entry_step fa eh elr (h _ (List.mem_cons_self _ _)) _,
      parse_go_entries rest es _ (fun x hx => h x (List.mem_cons_of_mem _ hx))]
    simp only [List.append_assoc, List.singleton_append]

theorem parse_go_files : ∀ (atts : List FileAttestation),
    (∀ fa ∈ atts, GoodPath fa.file_path ∧ fa.entries ≠ [] ∧ ∀ e ∈ fa.entries, GoodEntry e) →
    ∀ (cur : Option FileAttestation),
    parse_attestation_go cur (serialize_attestations atts) = .ok (flush_current cur ++ atts)
  | [], _, cur => by
    simp only [serialize_attestations, List.flatMap_nil, parse_attestation_go,
      List.append_nil]
  | fa :: atts, h, cur => by
    obtain ⟨hpath, hne, hents⟩ := h fa (List.mem_cons_self _ _)
    have hrest := parse_go_files atts (fun x hx => h x (List.mem_cons_of_mem _ hx))
    rw [show serialize_attestations (fa :: atts)
        = (if needs_quoting fa.file_path then '"' :: (fa.file_path ++ ['"'])
            else fa.file_path)
          :: (fa.entries.map serialize_entry_line ++ serialize_attestations atts) from by
      simp [serialize_attestations, serialize_file_lines]]
    rw [parse_go_path_step cur fa.file_path hpath _,
      parse_go_entries _ fa.entries ⟨fa.file_path, []⟩ hents]
    have hfa : ({ (⟨fa.file_path, []⟩ : FileAttestation) with
        entries := (⟨fa.file_path, []⟩ : FileAttestation).entries ++ fa.entries }) = fa :=
      rfl
    rw [hfa, hrest (some fa)]
    have hflush : flush_current (some fa) = [fa] := by
      show (if (!fa.entries.isEmpty) = true then [fa] else []) = [fa]
      rw [List.isEmpty_eq_false.2 hne]
      rfl
    rw [hflush]
    simp [Except.map]

theorem parse_section_serialize (atts : List FileAttestation)
    (h : ∀ fa ∈ atts, GoodPath fa.file_path ∧ fa.entries ≠ [] ∧
      ∀ e ∈ fa.entries, GoodEntry e) :
    parse_attestation_section (serialize_attestations atts) = .ok atts := by
  unfold parse_attestation_section
  rw [parse_go_files atts h none]
  rfl

theorem serialize_lines_ne_divider (atts : List FileAttestation)
    (h : ∀ fa ∈ atts, GoodPath fa.file_path) :
    ∀ l ∈ serialize_attestations atts, l ≠ DIVIDER := by
  intro l hl
  rw [serialize_attestations, List.mem_flatMap] at hl
  obtain ⟨fa, hfa, hlf⟩ := hl
  unfold serialize_file_lines at hlf
  rcases List.mem_cons.1 hlf with h1 | h2
  · subst h1
    by_cases hq : needs_quoting fa.file_path = true
    · rw [if_pos hq]
      intro hd
      rw [show DIVIDER = ['-', '-', '-'] from rfl] at hd
      injection hd with h1 _
      exact absurd h1 (by decide)
    · rw [if_neg hq]
      have hp2 : fa.file_path ≠ [] ∧ '\n' ∉ fa.file_path ∧ '\r' ∉ fa.file_path ∧
          fa.file_path ≠ DIVIDER ∧ (needs_quoting fa.file_path = true ∨
            (¬(fa.file_path.head? = some '"' ∧ fa.file_path.getLast? = some '"') ∧
              trimEnd fa.file_path = fa.file_path)) :=
        h fa hfa
      exact hp2.2.2.2.1
  · obtain ⟨e, _, heq⟩ := List.mem_map.1 h2
    subst heq
    intro hd
    rw [show DIVIDER = ['-', '-', '-'] from rfl] at hd
    unfold serialize_entry_line at hd
    injection hd with h1 _
    exact absurd h1 (by decide)

theorem splitAtDivider_append : ∀ (A : List Str), (∀ l ∈ A, l ≠ DIVIDER) →
    ∀ (M : List Str), splitAtDivider (A ++ DIVIDER :: M) = some (A, M)
  | [], _, M => by
    rw [List.nil_append]
    simp [splitAtDivider]
  | l :: A, h, M => by
    rw [List.cons_append]
    simp only [splitAtDivider]
    rw [if_neg (h l (List.mem_cons_self _ _)),
      splitAtDivider_append A (fun x hx => h x (List.mem_cons_of_mem _ hx)) M]
    rfl

/-- C1 counterexample: the claim's unconditional round trip fails — a
`FileAttestation` with an empty entry list is silently dropped by
`parse_attestation_section` (both flush sites keep a file block only when
it has entries), so deserializing the serialization of a log containing
such a file yields a structurally different log (with an identity
metadata codec on this log's metadata). -/
theorem c1_counterexample :
    deserialize_from_lines (fun _ => .ok AuthorshipMetadata.new)
        (serialize_to_lines (fun _ => [])
          ⟨[⟨str "a.txt", []⟩], AuthorshipMetadata.new⟩)
      = .ok ⟨[], AuthorshipMetadata.new⟩ ∧
    (⟨[], AuthorshipMetadata.new⟩ : AuthorshipLog)
      ≠ ⟨[⟨str "a.txt", []⟩], AuthorshipMetadata.new⟩ := by
  constructor
  · rfl
  · intro h
    cases h

/-- C1 (amended): serializing and then deserializing an `AuthorshipLog`
reproduces it exactly, provided the log is well-formed for the textual
grammar — every file attestation has a round-trippable path and at least
one entry, every entry has a whitespace-free hash and a non-empty,
start-sorted range list with 32-bit bounds — and the external serde
metadata codec round-trips this log's metadata. -/
theorem c1_round_trip (metaEnc : AuthorshipMetadata → List Str)
    (metaDec : List Str → Except Unit AuthorshipMetadata) (log : AuthorshipLog)
    (hgood : GoodLog log)
    (hmeta : metaDec (metaEnc log.metadata) = .ok log.metadata) :
    deserialize_from_lines metaDec (serialize_to_lines metaEnc log) = .ok log := by
  have hsplit : splitAtDivider (serialize_to_lines metaEnc log)
      = some (serialize_attestations log.attestations, metaEnc log.metadata) := by
    unfold serialize_to_lines
    rw [List.append_assoc]
    exact splitAtDivider_append _
      (serialize_lines_ne_divider log.attestations (fun fa hfa => (hgood fa hfa).1)) _
  have hsec : parse_attestation_section (serialize_attestations log.attestations)
      = .ok log.attestations :=
    parse_section_serialize log.attestations hgood
  unfold deserialize_from_lines
  simp only [hsplit, hsec, hmeta]

/-- Witness for C1: a concrete two-range log with trivial metadata codecs
round-trips exactly. -/
theorem c1_round_trip_witness :
    deserialize_from_lines (fun _ => .ok AuthorshipMetadata.new)
        (serialize_to_lines (fun _ => [])
          ⟨[⟨str "a.txt", [⟨str "h1", [.Single 3, .Range 5 7]⟩]⟩], AuthorshipMetadata.new⟩)
      = .ok ⟨[⟨str "a.txt", [⟨str "h1", [.Single 3, .Range 5 7]⟩]⟩],
          AuthorshipMetadata.new⟩ :=
  c1_round_trip _ _ _ (by unfold GoodLog GoodPath GoodEntry; decide) rfl

end GitAi
